import Mathlib

/-!
# Verification of the Chand-Identifier analysis pipeline

Shallow embedding of the core four-stage pipeline of the Chand-Identifier
repository (`scripts/pipeline.py`, `scripts/sandhi_rules.py`, `scripts/utils.py`):
syllabification, prosodic weight classification, reverse-sandhi candidate
generation, and meter-template matching.

Modelling conventions:
* Python strings are modelled as `List Char`; Python floats are modelled as
  exact rationals `ℚ` (all of the pipeline's arithmetic is small decimal
  arithmetic; the one real-exponent operation `x ** 1.5` in `match_chanda`
  is abstracted as an explicit function parameter `pow15 : ℚ → ℚ`).
* Python sets used only for membership tests are modelled as `List`s with
  decidable membership; Python dicts (insertion-ordered) are modelled as
  association lists that preserve insertion order.
* `sorted(..., reverse=True)` (a stable descending sort) is modelled by a
  stable descending insertion sort.
* All definitions are computable and mirror the control flow of the source.
-/

namespace Chand

/-! ## Basic character machinery (Python `str.isspace`, `re.split(r'\s+')`, …) -/

/-- Whitespace characters relevant to `str.isspace` / regex `\s` for the
pipeline's inputs (space, tab, newline, carriage return, vertical tab, form feed). -/
def isWsChar (c : Char) : Bool :=
  c = ' ' || c = '\t' || c = '\n' || c = '\r' || c = Char.ofNat 11 || c = Char.ofNat 12

/-- Python `str.strip()`: drop leading and trailing whitespace. -/
def pyStrip (l : List Char) : List Char :=
  ((l.dropWhile isWsChar).reverse.dropWhile isWsChar).reverse

/-- `[t for t in re.split(r'\s+', s) if t]`: whitespace-delimited tokens. -/
def splitWs (l : List Char) : List (List Char) :=
  match l with
  | [] => []
  | c :: rest =>
    if isWsChar c then splitWs rest
    else
      match splitWs rest with
      | [] => [[c]]
      | t :: ts =>
        match rest with
        | [] => [[c]]
        | d :: _ => if isWsChar d then [c] :: t :: ts else (c :: t) :: ts

/-- `re.sub(r'\s+', ' ', s.strip())`: whitespace-normalized form of a string,
equal to the single-space join of its tokens. -/
def wsNorm (l : List Char) : List Char :=
  match splitWs l with
  | [] => []
  | t :: ts => ts.foldl (fun acc u => acc ++ ' ' :: u) t

/-- Replace every occurrence of character `pat` by the string `repl`
(Python `str.replace` / `re.sub` with a single-character pattern). -/
def replaceAll (pat : Char) (repl : List Char) : List Char → List Char
  | [] => []
  | c :: rest => if c = pat then repl ++ replaceAll pat repl rest
                 else c :: replaceAll pat repl rest

/-- Naive substring test (Python `pat in s`). -/
def containsSub (pat : List Char) : List Char → Bool
  | [] => pat.isEmpty
  | c :: rest => pat.isPrefixOf (c :: rest) || containsSub pat rest

/-! ## Devanagari character classes (`scripts/pipeline.py` lines 8–17) -/

def VIRAMA : Char := Char.ofNat 0x094D        -- ्
def ANUSVARA : Char := Char.ofNat 0x0902      -- ं
def VISARGA : Char := Char.ofNat 0x0903       -- ः
def CHANDRABINDU : Char := Char.ofNat 0x0901  -- ँ
def AVAGRAHA : Char := Char.ofNat 0x093D      -- ऽ

/-- `MATRAS = set(list('ािीुूृेैोौ'))`: dependent vowel signs. -/
def MATRAS : List Char := ['ा', 'ि', 'ी', 'ु', 'ू', 'ृ', 'े', 'ै', 'ो', 'ौ']

/-- `CONSONANTS = set(chr(c) for c in range(0x0915, 0x093A))`. -/
def isCons (c : Char) : Bool := 0x0915 ≤ c.toNat && c.toNat < 0x093A

/-- `INDEP_VOWELS = set(chr(c) for c in range(0x0905, 0x0915))`. -/
def isIndepVowel (c : Char) : Bool := 0x0905 ≤ c.toNat && c.toNat < 0x0915

/-- `COMBINING = {ANUSVARA, VISARGA, CHANDRABINDU}`. -/
def isCombining (c : Char) : Bool := c = ANUSVARA || c = VISARGA || c = CHANDRABINDU

/-- `LONG_VOWELS = set(list('ाीूेैोौ'))` — the seven long dependent vowel signs. -/
def LONG_VOWELS : List Char := ['ा', 'ी', 'ू', 'े', 'ै', 'ो', 'ौ']

def isMatra (c : Char) : Bool := decide (c ∈ MATRAS)

/-! ## Syllabifier (`syllabify_devanagari`, pipeline.py lines 36–69) -/

/-- The inner consonant-cluster loop of `syllabify_devanagari` (lines 47–54):
greedily consume `consonant (virama consonant)*` with an optionally trailing
virama, mirroring `while i < n and is_consonant(line[i]): ... if line[i] == VIRAMA:
... continue else: break`.  Returns (unit so far, rest). -/
def takeConsCluster : List Char → List Char × List Char
  | [] => ([], [])
  | c :: rest =>
    if isCons c then
      match rest with
      | [] => ([c], [])
      | v :: rest2 =>
        if v = VIRAMA then
          let p := takeConsCluster rest2
          (c :: v :: p.1, p.2)
        else ([c], rest)
    else ([], c :: rest)

/-- "attach matra if present" (pipeline.py lines 56–57): if the rest starts
with a dependent vowel sign, move it onto the unit. -/
def attachMatra (p : List Char × List Char) : List Char × List Char :=
  match p with
  | (b, []) => (b, [])
  | (b, m :: r) => if isMatra m then (b ++ [m], r) else (b, m :: r)

/-- attach a trailing combining mark if present (pipeline.py lines 60–61 and 65–66). -/
def attachCombining (p : List Char × List Char) : List Char × List Char :=
  match p with
  | (b, []) => (b, [])
  | (b, m :: r) => if isCombining m then (b ++ [m], r) else (b, m :: r)

/-- The branch structure of the `syllabify_devanagari` loop body before the
final trailing-combining check (lines 47–63). -/
def takeUnitCore (l : List Char) : List Char × List Char :=
  match l with
  | [] => ([], [])
  | c :: rest =>
    if isCons c then attachMatra (takeConsCluster (c :: rest))
    else if isIndepVowel c then attachCombining ([c], rest)
    else ([c], rest)

/-- One iteration of the `syllabify_devanagari` main loop on a non-space head:
build one syllable unit `buf` and return it with the unconsumed rest
(lines 45–66). -/
def takeUnit (l : List Char) : List Char × List Char :=
  attachCombining (takeUnitCore l)

theorem takeConsCluster_append : ∀ l : List Char,
    (takeConsCluster l).1 ++ (takeConsCluster l).2 = l
  | [] => rfl
  | c :: rest => by
    by_cases hc : isCons c
    · cases rest with
      | nil => simp [takeConsCluster, hc]
      | cons v rest2 =>
        by_cases hv : v = VIRAMA
        · have ih := takeConsCluster_append rest2
          simp [takeConsCluster, hc, hv, ih]
        · simp [takeConsCluster, hc, hv]
    · cases rest with
      | nil => simp [takeConsCluster, hc]
      | cons v rest2 => simp [takeConsCluster, hc]

theorem attachMatra_append (p : List Char × List Char) :
    (attachMatra p).1 ++ (attachMatra p).2 = p.1 ++ p.2 := by
  rcases p with ⟨b, r⟩
  cases r with
  | nil => rfl
  | cons m r2 =>
    by_cases hm : isMatra m
    · simp [attachMatra, hm]
    · simp [attachMatra, hm]

theorem attachCombining_append (p : List Char × List Char) :
    (attachCombining p).1 ++ (attachCombining p).2 = p.1 ++ p.2 := by
  rcases p with ⟨b, r⟩
  cases r with
  | nil => rfl
  | cons m r2 =>
    by_cases hm : isCombining m
    · simp [attachCombining, hm]
    · simp [attachCombining, hm]

theorem takeUnitCore_append (l : List Char) :
    (takeUnitCore l).1 ++ (takeUnitCore l).2 = l := by
  cases l with
  | nil => rfl
  | cons c rest =>
    by_cases hc : isCons c
    · simp [takeUnitCore, hc, attachMatra_append, takeConsCluster_append]
    · by_cases hv : isIndepVowel c
      · simp [takeUnitCore, hc, hv, attachCombining_append]
      · simp [takeUnitCore, hc, hv]

theorem takeUnit_append (l : List Char) :
    (takeUnit l).1 ++ (takeUnit l).2 = l := by
  rw [takeUnit, attachCombining_append, takeUnitCore_append]

theorem takeConsCluster_fst_ne_nil (c : Char) (rest : List Char) (hc : isCons c = true) :
    (takeConsCluster (c :: rest)).1 ≠ [] := by
  cases rest with
  | nil => simp [takeConsCluster, hc]
  | cons v rest2 =>
    by_cases hv : v = VIRAMA
    · simp [takeConsCluster, hc, hv]
    · simp [takeConsCluster, hc, hv]

theorem attachMatra_fst_ne_nil (p : List Char × List Char) (h : p.1 ≠ []) :
    (attachMatra p).1 ≠ [] := by
  rcases p with ⟨b, r⟩
  cases r with
  | nil => exact h
  | cons m r2 =>
    by_cases hm : isMatra m
    · simp [attachMatra, hm]
    · simpa [attachMatra, hm] using h

theorem attachCombining_fst_ne_nil (p : List Char × List Char) (h : p.1 ≠ []) :
    (attachCombining p).1 ≠ [] := by
  rcases p with ⟨b, r⟩
  cases r with
  | nil => exact h
  | cons m r2 =>
    by_cases hm : isCombining m
    · simp [attachCombining, hm]
    · simpa [attachCombining, hm] using h

theorem takeUnit_fst_ne_nil (c : Char) (rest : List Char) :
    (takeUnit (c :: rest)).1 ≠ [] := by
  apply attachCombining_fst_ne_nil
  by_cases hc : isCons c
  · simp only [takeUnitCore, hc, if_true]
    exact attachMatra_fst_ne_nil _ (takeConsCluster_fst_ne_nil c rest hc)
  · by_cases hv : isIndepVowel c
    · have he : takeUnitCore (c :: rest) = attachCombining ([c], rest) := by
        simp [takeUnitCore, hc, hv]
      rw [he]
      exact attachCombining_fst_ne_nil _ (by simp)
    · simp [takeUnitCore, hc, hv]

theorem takeUnit_snd_length (c : Char) (rest : List Char) :
    ((takeUnit (c :: rest)).2).length < (c :: rest).length := by
  have happ := takeUnit_append (c :: rest)
  have hne := takeUnit_fst_ne_nil c rest
  have : (takeUnit (c :: rest)).1.length + (takeUnit (c :: rest)).2.length
      = (c :: rest).length := by
    rw [← List.length_append, happ]
  have hpos : 0 < (takeUnit (c :: rest)).1.length := List.length_pos.mpr hne
  omega

/-- The main loop of `syllabify_devanagari` (pipeline.py lines 41–68):
skip whitespace, otherwise take one unit and continue.  Fuelled structural
recursion: every iteration consumes at least one character, so fuel
`l.length` is always sufficient (`syllabifyFuel_adequate`). -/
def syllabifyFuel : ℕ → List Char → List (List Char)
  | 0, _ => []
  | _ + 1, [] => []
  | fuel + 1, c :: rest =>
    if isWsChar c then syllabifyFuel fuel rest
    else (takeUnit (c :: rest)).1 :: syllabifyFuel fuel (takeUnit (c :: rest)).2

def syllabifyGo (l : List Char) : List (List Char) := syllabifyFuel l.length l

/-- `syllabify_devanagari` (pipeline.py lines 36–69): strip, then scan. -/
def syllabify_devanagari (l : List Char) : List (List Char) :=
  syllabifyGo (pyStrip l)

/-! ### Syllable units contain no whitespace -/

theorem isWsChar_val_lt (x : Char) (h : isWsChar x = true) : x.toNat < 33 := by
  simp only [isWsChar, Bool.or_eq_true, decide_eq_true_eq] at h
  rcases h with ((((h | h) | h) | h) | h) | h <;> subst h <;> decide

theorem isCons_not_ws (x : Char) (h : isCons x = true) : isWsChar x = false := by
  by_contra hw
  have := isWsChar_val_lt x (by revert hw; cases isWsChar x <;> simp)
  simp only [isCons, Bool.and_eq_true, decide_eq_true_eq] at h
  omega

theorem isIndepVowel_not_ws (x : Char) (h : isIndepVowel x = true) : isWsChar x = false := by
  by_contra hw
  have := isWsChar_val_lt x (by revert hw; cases isWsChar x <;> simp)
  simp only [isIndepVowel, Bool.and_eq_true, decide_eq_true_eq] at h
  omega

theorem isMatra_not_ws (x : Char) (h : isMatra x = true) : isWsChar x = false := by
  have hx : x ∈ MATRAS := by simpa [isMatra] using h
  fin_cases hx <;> decide

theorem isCombining_not_ws (x : Char) (h : isCombining x = true) : isWsChar x = false := by
  simp only [isCombining, Bool.or_eq_true, decide_eq_true_eq] at h
  rcases h with (h | h) | h <;> subst h <;> decide

theorem virama_not_ws : isWsChar VIRAMA = false := by decide

theorem takeConsCluster_mem : ∀ (l : List Char) (x : Char),
    x ∈ (takeConsCluster l).1 → isCons x = true ∨ x = VIRAMA
  | [], x => by simp [takeConsCluster]
  | c :: rest, x => by
    by_cases hc : isCons c
    · cases rest with
      | nil =>
        simp only [takeConsCluster, hc, if_true]
        intro h
        simp at h
        subst h; exact Or.inl hc
      | cons v rest2 =>
        by_cases hv : v = VIRAMA
        · simp only [takeConsCluster, hc, if_true, hv]
          intro h
          simp only [List.mem_cons] at h
          rcases h with h | h | h
          · subst h; exact Or.inl hc
          · subst h; exact Or.inr rfl
          · exact takeConsCluster_mem rest2 x h
        · simp only [takeConsCluster, hc, if_true, hv]
          intro h
          simp only [Bool.false_eq_true, if_false, List.mem_singleton] at h
          subst h; exact Or.inl hc
    · cases rest with
      | nil => simp [takeConsCluster, hc]
      | cons v rest2 => simp [takeConsCluster, hc]

theorem attachMatra_mem (p : List Char × List Char) (x : Char)
    (h : x ∈ (attachMatra p).1) : x ∈ p.1 ∨ isMatra x = true := by
  rcases p with ⟨b, r⟩
  cases r with
  | nil => exact Or.inl h
  | cons m r2 =>
    by_cases hm : isMatra m
    · simp only [attachMatra, hm, if_true, List.mem_append, List.mem_singleton] at h
      rcases h with h | h
      · exact Or.inl h
      · subst h; exact Or.inr hm
    · simp only [attachMatra, hm] at h
      exact Or.inl (by simpa using h)

theorem attachCombining_mem (p : List Char × List Char) (x : Char)
    (h : x ∈ (attachCombining p).1) : x ∈ p.1 ∨ isCombining x = true := by
  rcases p with ⟨b, r⟩
  cases r with
  | nil => exact Or.inl h
  | cons m r2 =>
    by_cases hm : isCombining m
    · simp only [attachCombining, hm, if_true, List.mem_append, List.mem_singleton] at h
      rcases h with h | h
      · exact Or.inl h
      · subst h; exact Or.inr hm
    · simp only [attachCombining, hm] at h
      exact Or.inl (by simpa using h)

theorem takeUnit_mem_not_ws (c : Char) (rest : List Char) (hcw : isWsChar c = false)
    (x : Char) (hx : x ∈ (takeUnit (c :: rest)).1) : isWsChar x = false := by
  rcases attachCombining_mem _ x hx with hx1 | hx1
  · by_cases hc : isCons c
    · simp only [takeUnitCore, hc, if_true] at hx1
      rcases attachMatra_mem _ x hx1 with hx2 | hx2
      · rcases takeConsCluster_mem _ x hx2 with h | h
        · exact isCons_not_ws x h
        · subst h; exact virama_not_ws
      · exact isMatra_not_ws x hx2
    · by_cases hv : isIndepVowel c
      · simp only [takeUnitCore, hc, hv] at hx1
        simp only [Bool.false_eq_true, if_false, if_true] at hx1
        rcases attachCombining_mem _ x hx1 with hx2 | hx2
        · simp only [List.mem_singleton] at hx2
          subst hx2; exact hcw
        · exact isCombining_not_ws x hx2
      · simp only [takeUnitCore, hc, hv] at hx1
        simp only [Bool.false_eq_true, if_false, List.mem_singleton] at hx1
        subst hx1; exact hcw
  · exact isCombining_not_ws x hx1

/-! ### Reconstruction: concatenating all units gives the input minus whitespace -/

theorem syllabifyFuel_join : ∀ (fuel : ℕ) (l : List Char), l.length ≤ fuel →
    (syllabifyFuel fuel l).flatten = l.filter (fun c => !isWsChar c)
  | 0, l, h => by
    have : l = [] := List.length_eq_zero.mp (Nat.le_zero.mp h)
    subst this
    rfl
  | _ + 1, [], _ => rfl
  | fuel + 1, c :: rest, h => by
    have hrest : rest.length ≤ fuel := by
      simp only [List.length_cons] at h
      omega
    by_cases hw : isWsChar c
    · rw [syllabifyFuel]
      simp only [hw, if_true]
      rw [syllabifyFuel_join fuel rest hrest]
      simp [List.filter_cons, hw]
    · rw [syllabifyFuel]
      simp only [hw]
      simp only [Bool.false_eq_true, if_false, List.flatten_cons]
      have htail : ((takeUnit (c :: rest)).2).length ≤ fuel := by
        have := takeUnit_snd_length c rest
        simp only [List.length_cons] at this
        omega
      rw [syllabifyFuel_join fuel ((takeUnit (c :: rest)).2) htail]
      have hu : ((takeUnit (c :: rest)).1).filter (fun x => !isWsChar x)
          = (takeUnit (c :: rest)).1 := by
        apply List.filter_eq_self.mpr
        intro x hx
        have hcw : isWsChar c = false := by revert hw; cases isWsChar c <;> simp
        simp [takeUnit_mem_not_ws c rest hcw x hx]
      calc (takeUnit (c :: rest)).1 ++ ((takeUnit (c :: rest)).2).filter (fun c => !isWsChar c)
          = ((takeUnit (c :: rest)).1).filter (fun c => !isWsChar c)
            ++ ((takeUnit (c :: rest)).2).filter (fun c => !isWsChar c) := by rw [hu]
        _ = ((takeUnit (c :: rest)).1 ++ (takeUnit (c :: rest)).2).filter
              (fun c => !isWsChar c) := by rw [List.filter_append]
        _ = (c :: rest).filter (fun c => !isWsChar c) := by rw [takeUnit_append]

theorem syllabifyGo_join (l : List Char) :
    (syllabifyGo l).flatten = l.filter (fun c => !isWsChar c) :=
  syllabifyFuel_join l.length l (le_refl _)

theorem pyStrip_filter (l : List Char) :
    (pyStrip l).filter (fun c => !isWsChar c) = l.filter (fun c => !isWsChar c) := by
  unfold pyStrip
  have h1 : ∀ m : List Char, (m.dropWhile isWsChar).filter (fun c => !isWsChar c)
      = m.filter (fun c => !isWsChar c) := by
    intro m
    induction m with
    | nil => rfl
    | cons c rest ih =>
      by_cases hw : isWsChar c
      · rw [List.dropWhile_cons_of_pos hw, ih, List.filter_cons]
        simp [hw]
      · rw [List.dropWhile_cons_of_neg hw]
  calc (((l.dropWhile isWsChar).reverse.dropWhile isWsChar).reverse).filter
        (fun c => !isWsChar c)
      = (((l.dropWhile isWsChar).reverse.dropWhile isWsChar).filter
          (fun c => !isWsChar c)).reverse := by rw [List.filter_reverse]
    _ = (((l.dropWhile isWsChar).reverse).filter (fun c => !isWsChar c)).reverse := by
          rw [h1]
    _ = (((l.dropWhile isWsChar).filter (fun c => !isWsChar c)).reverse).reverse := by
          rw [List.filter_reverse]
    _ = (l.dropWhile isWsChar).filter (fun c => !isWsChar c) := by
          rw [List.reverse_reverse]
    _ = l.filter (fun c => !isWsChar c) := h1 l

/-- Reconstruction for the full syllabifier. -/
theorem syllabify_join (l : List Char) :
    (syllabify_devanagari l).flatten = l.filter (fun c => !isWsChar c) := by
  rw [syllabify_devanagari, syllabifyGo_join, pyStrip_filter]

/-! ### Character-class disjointness -/

theorem isCombining_not_cons (x : Char) (h : isCombining x = true) : isCons x = false := by
  simp only [isCombining, Bool.or_eq_true, decide_eq_true_eq] at h
  rcases h with (h | h) | h <;> subst h <;> decide

theorem isCombining_not_indep (x : Char) (h : isCombining x = true) :
    isIndepVowel x = false := by
  simp only [isCombining, Bool.or_eq_true, decide_eq_true_eq] at h
  rcases h with (h | h) | h <;> subst h <;> decide

theorem isCombining_not_matra (x : Char) (h : isCombining x = true) : isMatra x = false := by
  simp only [isCombining, Bool.or_eq_true, decide_eq_true_eq] at h
  rcases h with (h | h) | h <;> subst h <;> decide

theorem isMatra_not_cons (x : Char) (h : isMatra x = true) : isCons x = false := by
  have hx : x ∈ MATRAS := by simpa [isMatra] using h
  fin_cases hx <;> decide

theorem isIndepVowel_not_cons (x : Char) (h : isIndepVowel x = true) : isCons x = false := by
  simp only [isIndepVowel, Bool.and_eq_true, decide_eq_true_eq] at h
  by_contra hc
  have hc' : isCons x = true := by revert hc; cases isCons x <;> simp
  simp only [isCons, Bool.and_eq_true, decide_eq_true_eq] at hc'
  omega

/-! ### Unit boundaries never split consonant+matra or vowel+combining mark -/

/-- If anything remains after a unit and the unit's last character is a bare
consonant, the next character is not a dependent vowel sign; and if the unit's
last character is a vowel (independent vowel or vowel sign), the next character
is not a combining mark. -/
theorem takeUnit_boundary (c : Char) (rest : List Char)
    (x d : Char) (hlast : (takeUnit (c :: rest)).1.getLast? = some x)
    (hhead : (takeUnit (c :: rest)).2.head? = some d) :
    (isCons x = true → isMatra d = false)
    ∧ ((isIndepVowel x = true ∨ isMatra x = true) → isCombining d = false) := by
  rw [takeUnit] at hlast hhead
  rcases hp : takeUnitCore (c :: rest) with ⟨b, r⟩
  rw [hp] at hlast hhead
  cases r with
  | nil => simp [attachCombining] at hhead
  | cons m r2 =>
    by_cases hm : isCombining m
    · -- the trailing combining mark was attached: the unit ends in `m`
      simp only [attachCombining, hm, if_true] at hlast hhead
      rw [List.getLast?_concat] at hlast
      have hmx : m = x := Option.some.inj hlast
      constructor
      · intro hcons
        rw [← hmx, isCombining_not_cons m hm] at hcons
        exact absurd hcons (by simp)
      · intro hvow
        rw [← hmx] at hvow
        rcases hvow with hv1 | hv1
        · rw [isCombining_not_indep m hm] at hv1; exact absurd hv1 (by simp)
        · rw [isCombining_not_matra m hm] at hv1; exact absurd hv1 (by simp)
    · -- nothing attached; the rest begins with the non-combining `m`
      simp only [attachCombining, hm] at hlast hhead
      simp only [Bool.false_eq_true, if_false] at hlast hhead
      simp only [List.head?_cons] at hhead
      have hmd : m = d := Option.some.inj hhead
      constructor
      · intro hcons
        rw [← hmd]
        -- the unit ended in a consonant: run through the takeUnitCore branches
        by_cases hc : isCons c
        · -- consonant branch: takeUnitCore = attachMatra (takeConsCluster _)
          simp only [takeUnitCore, hc, if_true] at hp
          rcases hq : takeConsCluster (c :: rest) with ⟨qb, qr⟩
          rw [hq] at hp
          cases qr with
          | nil =>
            simp only [attachMatra] at hp
            exact absurd (congrArg Prod.snd hp) (by simp)
          | cons m0 r0 =>
            by_cases hm0 : isMatra m0
            · -- matra was attached: the unit's last char is the matra, not a consonant
              simp only [attachMatra, hm0, if_true] at hp
              rw [Prod.mk.injEq] at hp
              obtain ⟨hp1, hp2⟩ := hp
              rw [← hp1, List.getLast?_concat] at hlast
              have h0x : m0 = x := Option.some.inj hlast
              rw [← h0x, isMatra_not_cons m0 hm0] at hcons
              exact absurd hcons (by simp)
            · simp only [attachMatra, hm0] at hp
              simp only [Bool.false_eq_true, if_false] at hp
              rw [Prod.mk.injEq] at hp
              obtain ⟨hp1, hp2⟩ := hp
              have h0m : m0 = m := by
                have := congrArg List.head? hp2
                simpa using this
              rw [← h0m]
              simpa using hm0
        · by_cases hv : isIndepVowel c
          · -- vowel branch: the unit is [c] or [c, combining]; its last is not a consonant
            have he : takeUnitCore (c :: rest) = attachCombining ([c], rest) := by
              simp [takeUnitCore, hc, hv]
            rw [he] at hp
            cases rest with
            | nil =>
              simp only [attachCombining] at hp
              rw [Prod.mk.injEq] at hp
              exact absurd hp.2 (by simp)
            | cons m1 r1 =>
              by_cases hm1 : isCombining m1
              · simp only [attachCombining, hm1, if_true] at hp
                rw [Prod.mk.injEq] at hp
                obtain ⟨hp1, hp2⟩ := hp
                rw [← hp1, List.getLast?_concat] at hlast
                have h1x : m1 = x := Option.some.inj hlast
                rw [← h1x, isCombining_not_cons m1 hm1] at hcons
                exact absurd hcons (by simp)
              · simp only [attachCombining, hm1] at hp
                simp only [Bool.false_eq_true, if_false] at hp
                rw [Prod.mk.injEq] at hp
                obtain ⟨hp1, hp2⟩ := hp
                rw [← hp1] at hlast
                have hcx : c = x := Option.some.inj hlast
                rw [← hcx, isIndepVowel_not_cons c hv] at hcons
                exact absurd hcons (by simp)
          · -- fallback branch: the unit is [c] with c not a consonant
            simp only [takeUnitCore, hc, hv] at hp
            simp only [Bool.false_eq_true, if_false] at hp
            rw [Prod.mk.injEq] at hp
            obtain ⟨hp1, hp2⟩ := hp
            rw [← hp1] at hlast
            have hcx : c = x := Option.some.inj hlast
            rw [← hcx] at hcons
            exact absurd hcons hc
      · intro _
        rw [← hmd]
        simpa using hm

/-! ## Weight classifier (`silver_label_syllable`, pipeline.py lines 72–82) -/

/-- `silver_label_syllable(syll)`: returns `(label, confidence, reason)` by the
priority cascade: combining mark → (G, 0.95); long-vowel sign → (G, 0.95);
virama → (G, 0.9); default → (L, 0.95).  Note that `LONG_VOWELS` holds only the
seven long dependent vowel signs; independent vowels are not in it. -/
def silver_label_syllable (syll : List Char) : String × ℚ × String :=
  if syll.any isCombining then
    ("G", 19/20, "anusvara/visarga/chandrabindu present (rule)")
  else if syll.any (fun ch => decide (ch ∈ LONG_VOWELS)) then
    ("G", 19/20, "long vowel matra/indep vowel (rule)")
  else if decide (VIRAMA ∈ syll) then
    ("G", 9/10, "consonant conjunct / halant (rule)")
  else
    ("L", 19/20, "short vowel / open syllable (rule)")

/-- C5: for every input line, concatenating all syllable units returned by
`syllabify_devanagari` yields exactly the input with its whitespace removed;
and at every unit boundary produced by the scanner's loop step `takeUnit`,
a unit ending in a bare consonant is never followed by a dependent vowel sign,
and a unit ending in a vowel (independent vowel or vowel sign) is never
followed by a combining mark. -/
theorem syllabify_reconstruction_and_boundaries :
    (∀ l : List Char,
      (syllabify_devanagari l).flatten = l.filter (fun c => !isWsChar c))
    ∧ (∀ (c : Char) (rest : List Char) (x d : Char),
        (takeUnit (c :: rest)).1.getLast? = some x →
        (takeUnit (c :: rest)).2.head? = some d →
        (isCons x = true → isMatra d = false)
        ∧ ((isIndepVowel x = true ∨ isMatra x = true) → isCombining d = false)) := by
  constructor
  · exact syllabify_join
  · intro c rest x d hlast hhead
    exact takeUnit_boundary c rest x d hlast hhead

/-- Witness for C5 at concrete inputs: the line "राम कः", and the boundary step
on "कत" (unit "क" followed by rest "त"). -/
theorem syllabify_reconstruction_witness :
    ((syllabify_devanagari ['र', 'ा', 'म', ' ', 'क', 'ः']).flatten
      = List.filter (fun c => !isWsChar c) ['र', 'ा', 'म', ' ', 'क', 'ः'])
    ∧ ((takeUnit ['क', 'त']).1.getLast? = some 'क'
        ∧ (takeUnit ['क', 'त']).2.head? = some 'त'
        ∧ (isCons 'क' = true → isMatra 'त' = false)) := by
  refine ⟨syllabify_reconstruction_and_boundaries.1 _, by decide, by decide, ?_⟩
  exact (syllabify_reconstruction_and_boundaries.2 'क' ['त'] 'क' 'त'
    (by decide) (by decide)).1

/-- C1 (failing input): the unit consisting of the single independent long
vowel `आ` is classified Light with confidence 0.95, although the classifier's
own reason string for its second branch reads
"long vowel matra/indep vowel (rule)" — `LONG_VOWELS` contains only the seven
dependent long vowel signs, so no independent long vowel ever triggers it. -/
theorem silver_label_indep_long_vowel_light :
    silver_label_syllable ['आ']
      = ("L", 19/20, "short vowel / open syllable (rule)") := by
  rfl

/-! ## Reverse-sandhi candidate generator (`scripts/sandhi_rules.py`) -/

/-- A sandhi candidate: `{'cand': text, 'score': score, 'rules': [...]}`. -/
structure Cand where
  cand : List Char
  score : ℚ
  rules : List String
deriving DecidableEq, Repr

/-- `DEFAULT_LEXICON` (sandhi_rules.py lines 31–36), including the
`'नम:"'` placeholder entry. -/
def DEFAULT_LEXICON : List (List Char) :=
  ["राम", "रामः", "रामो", "सीता", "सीतायै", "सीताम्", "कृष्ण", "कृष्णः", "गुरु",
   "शिष्य", "विद्या", "धर्म", "धर्मः", "सत्यम्", "अहम्", "पाण्डव", "हनुमान", "लङ्का",
   "अर्जुन", "भीम", "गद", "वेद", "ज्ञान", "शिव", "शिवः", "लोका", "सुख", "बलवान्",
   "अस्ति", "गच्छति", "व्रज", "गगन", "सागर", "नम:\""].map String.toList

/-- Python `pat in name` on rule-name strings. -/
def strContains (pat s : String) : Bool := containsSub pat.toList s.toList

/-- The "aggressive" rule-name test of `_baseline_score` (line 245):
`'ai->' in rule_name or 'a+u' in rule_name or 'ū' in rule_name`. -/
def isAggressiveRule (rule_name : String) : Bool :=
  strContains "ai->" rule_name || strContains "a+u" rule_name
    || strContains "ū" rule_name

/-- The final clip of `_baseline_score` (lines 253–254). -/
def pyClamp (x : ℚ) : ℚ := if x < -2 then -2 else if x > 2 then 2 else x

/-- `_baseline_score(orig, cand, rule_name, lexicon)` (lines 218–255). -/
def _baseline_score (orig cand : List Char) (rule_name : String)
    (lexicon : List (List Char)) : ℚ :=
  let score1 : ℚ := 1
  -- penalize isolated independent vowels
  let iso : ℕ := (splitWs cand).countP
    (fun t => t.length == 1 && isIndepVowel (t.headD ' '))
  let score2 := score1 - (1/4 : ℚ) * iso
  -- lexicon reward: fraction of tokens in lexicon
  let tokens := splitWs cand
  let score3 :=
    if tokens.length ≠ 0 then
      score2 + (7/10 : ℚ) *
        ((tokens.countP (fun t => decide (t ∈ lexicon)) : ℚ) / (tokens.length : ℚ))
    else score2
  -- small penalty for length difference
  let diff : ℚ := |(cand.length : ℚ) - (orig.length : ℚ)|
  let score4 := score3 - (1/50 : ℚ) * diff
  -- penalize "aggressive" rules
  let score5 := if isAggressiveRule rule_name then score4 - 1/10 else score4
  -- rule-name tiny penalty
  let score6 := if rule_name ≠ "" then score5 - 3/100 else score5
  pyClamp score6

/-- One single-character-pattern rule of `REVERSE_RULES`:
`if re.search(pat, text): out.append(re.sub(pat, repl, text))`. -/
def charRule (text : List Char) (pat : Char) (repl : List Char) (name : String) :
    List (List Char × String) :=
  if decide (pat ∈ text) then [(replaceAll pat repl text, name)] else []

/-- `re.sub(r'([क-ह])\1', r'\1 \1', text)`: split doubled consonants
(left-to-right, non-overlapping). -/
def subDouble : List Char → List Char
  | [] => []
  | [a] => [a]
  | a :: b :: rest =>
    if isCons a && a = b then a :: ' ' :: b :: subDouble rest
    else a :: subDouble (b :: rest)

/-- `re.search(r'([क-ह])\1', text)`. -/
def hasDouble : List Char → Bool
  | [] => false
  | [_] => false
  | a :: b :: rest => (isCons a && a = b) || hasDouble (b :: rest)

/-- The `REVERSE_RULES` pass of `_one_step_candidates` (lines 55–77, 178–185),
in source order. -/
def regexPairs (text : List Char) : List (List Char × String) :=
  charRule text 'ा' ['अ', 'अ'] "savarṇa-dīrgha"
  ++ charRule text 'े' ['अ', 'इ'] "a+i -> e (guṇa/saṃyoga reverse)"
  ++ charRule text 'ो' ['अ', 'उ'] "a+u -> o"
  ++ charRule text 'ी' ['इ', 'इ'] "ī -> i+i (conservative)"
  ++ charRule text 'ू' ['उ', 'उ'] "ū -> u+u (conservative)"
  ++ charRule text 'ः' [' ', 'ः', ' '] "visarga-space"
  ++ charRule text 'ं' [' ', 'ं', ' '] "anusvara-space"
  ++ charRule text 'ऽ' [' '] "avagraha-split"
  ++ (if hasDouble text then [(subDouble text, "double-consonant-split")] else [])
  ++ charRule text 'ौ' ['अ', 'उ'] "au -> a+u (reverse)"
  ++ charRule text 'ै' ['अ', 'इ'] "ai -> a+i (reverse)"

/-- `reverse_vowel_sandhi_variants` (lines 80–100). -/
def vowelVariantPairs (text : List Char) : List (List Char × String) :=
  (if decide ('े' ∈ text) then
    [(replaceAll 'े' ['अ', 'इ'] text, "e->a+i"),
     (replaceAll 'े' ['अ', 'ी'] text, "e->a+ī")] else [])
  ++ (if decide ('ो' ∈ text) then
    [(replaceAll 'ो' ['अ', 'उ'] text, "o->a+u"),
     (replaceAll 'ो' ['अ', 'ू'] text, "o->a+ū")] else [])
  ++ (if decide ('ौ' ∈ text) then
    [(replaceAll 'ौ' ['अ', 'उ'] text, "au->a+u")] else [])
  ++ (if decide ('ै' ∈ text) then
    [(replaceAll 'ै' ['अ', 'इ'] text, "ai->a+i")] else [])
  ++ (if decide ('ा' ∈ text) then
    [(replaceAll 'ा' ['अ', 'अ'] text, "ā->a+a")] else [])

/-- `reverse_visarga_variants` (lines 102–114). -/
def visargaVariantPairs (text : List Char) : List (List Char × String) :=
  if decide ('ः' ∈ text) then
    [(replaceAll 'ः' ['स', '्', ' '] text, "visarga->s + space (conservative)"),
     (replaceAll 'ः' ['त', '्', ' '] text, "visarga->t + space (conservative)")]
  else []

/-- The regex lookahead `(?=\s*.)` of `reverse_anusvara_variants`: after the
anusvara there is a (possibly whitespace-preceded) non-newline character. -/
def anusvaraLookahead : List Char → Bool
  | [] => false
  | c :: rest => if c = '\n' then anusvaraLookahead rest else true

/-- The nasal-class dispatch of `reverse_anusvara_variants` (lines 133–142). -/
def nasalGroup (nxt : Char) : Option (List Char × String) :=
  if decide (nxt ∈ ['क', 'ख', 'ग', 'घ', 'ङ']) then
    some (['ङ', '्'], "anusvara->ṅ (velar)")
  else if decide (nxt ∈ ['च', 'छ', 'ज', 'झ', 'ञ']) then
    some (['ञ', '्'], "anusvara->ñ (palatal)")
  else if decide (nxt ∈ ['ट', 'ठ', 'ड', 'ढ', 'ण']) then
    some (['ण', '्'], "anusvara->ṇ (retroflex)")
  else if decide (nxt ∈ ['त', 'थ', 'द', 'ध', 'न']) then
    some (['न', '्'], "anusvara->n (dental)")
  else if decide (nxt ∈ ['प', 'फ', 'ब', 'भ', 'म']) then
    some (['म', '्'], "anusvara->m (labial)")
  else none

/-- `reverse_anusvara_variants` (lines 116–146): one variant per matched
anusvara position, scanning left to right; `orig` is the full unmodified text
(used by the generic `text.replace` fallback). -/
def anusvaraVariantsGo (orig : List Char) (pre : List Char) :
    List Char → List (List Char × String)
  | [] => []
  | c :: r =>
    (if c = ANUSVARA && anusvaraLookahead r then
      match r with
      | [] => []
      | nxt :: _ =>
        match nasalGroup nxt with
        | some (repl, name) => [(pre ++ repl ++ r, name)]
        | none => [(replaceAll ANUSVARA [' ', 'ं', ' '] orig, "anusvara->space")]
    else [])
    ++ anusvaraVariantsGo orig (pre ++ [c]) r

def anusvaraVariantPairs (text : List Char) : List (List Char × String) :=
  anusvaraVariantsGo text [] text

/-- `reverse_consonant_sandhi` (lines 149–163): for each maximal run of ≥ 2
consonants not at the start of the text, insert a space before the run. -/
def clusterGo (pre : List Char) (prevIsCons : Bool) :
    List Char → List (List Char × String)
  | [] => []
  | c :: r =>
    (if isCons c && !prevIsCons
        && (match r with | d :: _ => isCons d | [] => false)
        && !pre.isEmpty then
      [(pre ++ ' ' :: c :: r, "consonant-cluster-split")]
    else [])
    ++ clusterGo (pre ++ [c]) (isCons c) r

def clusterPairs (text : List Char) : List (List Char × String) :=
  clusterGo [] false text

/-- All candidate/rule-name pairs considered by `_one_step_candidates`,
in source order (lines 166–215). -/
def oneStepPairs (text : List Char) : List (List Char × String) :=
  regexPairs text ++ vowelVariantPairs text ++ visargaVariantPairs text
    ++ anusvaraVariantPairs text ++ clusterPairs text

/-- The `seen` filter of `_one_step_candidates`: keep the first occurrence of
each candidate text. -/
def dedupFirst : List (List Char × String) → List (List Char) → List (List Char × String)
  | [], _ => []
  | (c, n) :: rest, seen =>
    if decide (c ∈ seen) then dedupFirst rest seen
    else (c, n) :: dedupFirst rest (c :: seen)

/-- `_one_step_candidates(text, lexicon)` (lines 166–215). -/
def _one_step_candidates (text : List Char) (lexicon : List (List Char)) :
    List Cand :=
  (dedupFirst (oneStepPairs text) []).map
    (fun p => ⟨p.1, _baseline_score text p.1 p.2 lexicon, [p.2]⟩)

/-- The identity candidate added first by `gen_candidates` (line 275). -/
def identityCand (line : List Char) (lexicon : List (List Char)) : Cand :=
  ⟨line, _baseline_score line line "identity" lexicon, ["identity"]⟩

/-- The optional aggressive candidates of `gen_candidates` (lines 282–287). -/
def aggressiveCands (line : List Char) (lexicon : List (List Char)) : List Cand :=
  (if decide ('े' ∈ line) then
    [⟨replaceAll 'े' ['अ', 'इ'] line,
      _baseline_score line (replaceAll 'े' ['अ', 'इ'] line) "aggr-e->a+i" lexicon,
      ["aggr-e->a+i"]⟩] else [])
  ++ (if decide ('ो' ∈ line) then
    [⟨replaceAll 'ो' ['अ', 'उ'] line,
      _baseline_score line (replaceAll 'ो' ['अ', 'उ'] line) "aggr-o->a+u" lexicon,
      ["aggr-o->a+u"]⟩] else [])

/-- The two-step expansion of `gen_candidates` (lines 289–298): one-step on
each one-step result, averaging scores and concatenating rule names. -/
def twoStepCands (line : List Char) (lexicon : List (List Char)) : List Cand :=
  (_one_step_candidates line lexicon).flatMap (fun item =>
    (_one_step_candidates item.cand lexicon).map (fun s =>
      ⟨s.cand, (item.score + s.score) / 2, item.rules ++ s.rules⟩))

/-- The full (pre-dedup) candidate list built by `gen_candidates`
(lines 269–298), after `line = line.strip()`. -/
def genPreDedup (line0 : List Char) (lexicon : List (List Char))
    (allowAggressive : Bool) : List Cand :=
  let line := pyStrip line0
  identityCand line lexicon ::
    (_one_step_candidates line lexicon
      ++ (if allowAggressive then aggressiveCands line lexicon else [])
      ++ twoStepCands line lexicon)

/-- One step of the `best` dict construction (lines 301–305): dicts preserve
insertion order; an entry is replaced in place only on a strictly greater score. -/
def upsert (acc : List Cand) (c : Cand) : List Cand :=
  match acc with
  | [] => [⟨wsNorm c.cand, c.score, c.rules⟩]
  | e :: rest =>
    if e.cand = wsNorm c.cand then
      (if c.score > e.score then ⟨wsNorm c.cand, c.score, c.rules⟩ :: rest
       else e :: rest)
    else e :: upsert rest c

/-- `best` dict: dedupe by whitespace-normalized text, keep best score. -/
def dedupBest (cs : List Cand) : List Cand := cs.foldl upsert []

/-- Stable insertion into a descending-sorted list (after all entries with a
score ≥ the new one), modelling Python's stable `sorted(..., reverse=True)`. -/
def insertDesc (c : Cand) : List Cand → List Cand
  | [] => [c]
  | e :: rest => if e.score ≥ c.score then e :: insertDesc c rest else c :: e :: rest

def sortDesc (cs : List Cand) : List Cand :=
  cs.foldl (fun acc c => insertDesc c acc) []

/-- The deduplicated, descending-sorted candidate list (`result`, line 308),
before the token boost and the truncation to `k`. -/
def genSorted (line0 : List Char) (lexicon : List (List Char))
    (allowAggressive : Bool) : List Cand :=
  sortDesc (dedupBest (genPreDedup line0 lexicon allowAggressive))

/-- `token_boost` (lines 311–313): `0.01` per whitespace token. -/
def tokenBoost (c : Cand) : ℚ := ((splitWs c.cand).length : ℚ) * (1/100)

def addBoost (c : Cand) : Cand := ⟨c.cand, c.score + tokenBoost c, c.rules⟩

/-- `gen_candidates(line, k, lexicon, allow_aggressive)` (lines 258–317).
`lexicon` stands for `set(DEFAULT_LEXICON) | load_lexicon(path)`; the source
always unions the default lexicon in, so callers pass a superset of
`DEFAULT_LEXICON`. -/
def gen_candidates (line : List Char) (k : ℕ) (lexicon : List (List Char))
    (allowAggressive : Bool) : List Cand :=
  ((genSorted line lexicon allowAggressive).map addBoost).take k

/-! ### Score bounds through the generator pipeline -/

theorem pyClamp_bounds (x : ℚ) : -2 ≤ pyClamp x ∧ pyClamp x ≤ 2 := by
  unfold pyClamp
  split
  · norm_num
  · split
    · norm_num
    · constructor <;> linarith [not_lt.mp (by assumption : ¬x < -2),
        not_lt.mp (by assumption : ¬x > 2)]

theorem _baseline_score_bounds (orig cand : List Char) (rule_name : String)
    (lexicon : List (List Char)) :
    -2 ≤ _baseline_score orig cand rule_name lexicon
    ∧ _baseline_score orig cand rule_name lexicon ≤ 2 := by
  unfold _baseline_score
  exact pyClamp_bounds _

theorem one_step_score_bounds (text : List Char) (lexicon : List (List Char))
    (c : Cand) (hc : c ∈ _one_step_candidates text lexicon) :
    -2 ≤ c.score ∧ c.score ≤ 2 := by
  unfold _one_step_candidates at hc
  rw [List.mem_map] at hc
  obtain ⟨p, _, hp⟩ := hc
  rw [← hp]
  exact _baseline_score_bounds text p.1 p.2 lexicon

theorem twoStep_score_bounds (line : List Char) (lexicon : List (List Char))
    (c : Cand) (hc : c ∈ twoStepCands line lexicon) :
    -2 ≤ c.score ∧ c.score ≤ 2 := by
  unfold twoStepCands at hc
  rw [List.mem_flatMap] at hc
  obtain ⟨item, hitem, hc⟩ := hc
  rw [List.mem_map] at hc
  obtain ⟨s, hs, hc⟩ := hc
  obtain ⟨h1a, h1b⟩ := one_step_score_bounds line lexicon item hitem
  obtain ⟨h2a, h2b⟩ := one_step_score_bounds item.cand lexicon s hs
  rw [← hc]
  constructor <;> simp only [] <;> linarith

theorem aggressive_score_bounds (line : List Char) (lexicon : List (List Char))
    (c : Cand) (hc : c ∈ aggressiveCands line lexicon) :
    -2 ≤ c.score ∧ c.score ≤ 2 := by
  unfold aggressiveCands at hc
  rw [List.mem_append] at hc
  rcases hc with hc | hc <;>
  · split at hc
    · simp only [List.mem_singleton] at hc
      rw [hc]
      exact _baseline_score_bounds _ _ _ _
    · simp at hc

theorem genPreDedup_score_bounds (line : List Char) (lexicon : List (List Char))
    (aggr : Bool) (c : Cand) (hc : c ∈ genPreDedup line lexicon aggr) :
    -2 ≤ c.score ∧ c.score ≤ 2 := by
  unfold genPreDedup at hc
  rw [List.mem_cons] at hc
  rcases hc with hc | hc
  · rw [hc]; exact _baseline_score_bounds _ _ _ _
  · rw [List.mem_append] at hc
    rcases hc with hc | hc
    · rw [List.mem_append] at hc
      rcases hc with hc | hc
      · exact one_step_score_bounds _ _ _ hc
      · split at hc
        · exact aggressive_score_bounds _ _ _ hc
        · cases hc
    · exact twoStep_score_bounds _ _ _ hc

theorem upsert_mem (acc : List Cand) (c e : Cand) (he : e ∈ upsert acc c) :
    e ∈ acc ∨ e.score = c.score := by
  induction acc with
  | nil =>
    simp only [upsert, List.mem_singleton] at he
    right; rw [he]
  | cons a rest ih =>
    simp only [upsert] at he
    by_cases ha : a.cand = wsNorm c.cand
    · rw [if_pos ha] at he
      by_cases hs : c.score > a.score
      · rw [if_pos hs] at he
        rw [List.mem_cons] at he
        rcases he with he | he
        · right; rw [he]
        · left; exact List.mem_cons_of_mem a he
      · rw [if_neg hs] at he
        left; exact he
    · rw [if_neg ha] at he
      rw [List.mem_cons] at he
      rcases he with he | he
      · left; rw [he]; exact List.mem_cons_self a rest
      · rcases ih he with h | h
        · left; exact List.mem_cons_of_mem a h
        · right; exact h

theorem dedupBest_score_pred (P : ℚ → Prop) (cs : List Cand)
    (hcs : ∀ c ∈ cs, P c.score) (e : Cand) (he : e ∈ dedupBest cs) : P e.score := by
  unfold dedupBest at he
  suffices h : ∀ (acc : List Cand), (∀ a ∈ acc, P a.score) →
      ∀ x ∈ cs.foldl upsert acc, P x.score by
    exact h [] (by simp) e he
  clear he
  induction cs with
  | nil => intro acc hacc x hx; exact hacc x hx
  | cons c rest ih =>
    intro acc hacc x hx
    simp only [List.foldl_cons] at hx
    refine ih (fun a ha => hcs a (List.mem_cons_of_mem c ha)) (upsert acc c) ?_ x hx
    intro a ha
    rcases upsert_mem acc c a ha with h | h
    · exact hacc a h
    · rw [h]; exact hcs c (List.mem_cons_self c rest)

theorem insertDesc_mem (c e : Cand) (l : List Cand) (he : e ∈ insertDesc c l) :
    e = c ∨ e ∈ l := by
  induction l with
  | nil => simp only [insertDesc, List.mem_singleton] at he; left; exact he
  | cons a rest ih =>
    simp only [insertDesc] at he
    split at he
    · rw [List.mem_cons] at he
      rcases he with he | he
      · right; rw [he]; exact List.mem_cons_self a rest
      · rcases ih he with h | h
        · left; exact h
        · right; exact List.mem_cons_of_mem a h
    · rw [List.mem_cons] at he
      rcases he with he | he
      · left; exact he
      · right; exact he

theorem sortDesc_mem (cs : List Cand) (e : Cand) (he : e ∈ sortDesc cs) : e ∈ cs := by
  unfold sortDesc at he
  suffices h : ∀ (acc : List Cand), (∀ a ∈ acc, a ∈ cs) →
      ∀ x ∈ cs.foldl (fun acc c => insertDesc c acc) acc, x ∈ cs by
    exact h [] (by simp) e he
  clear he
  have main : ∀ (ds : List Cand) (acc : List Cand) (univ : List Cand),
      (∀ a ∈ acc, a ∈ univ) → (∀ d ∈ ds, d ∈ univ) →
      ∀ x ∈ ds.foldl (fun acc c => insertDesc c acc) acc, x ∈ univ := by
    intro ds
    induction ds with
    | nil => intro acc univ hacc _ x hx; exact hacc x hx
    | cons d rest ih =>
      intro acc univ hacc hds x hx
      simp only [List.foldl_cons] at hx
      refine ih (insertDesc d acc) univ ?_
        (fun a ha => hds a (List.mem_cons_of_mem d ha)) x hx
      intro a ha
      rcases insertDesc_mem d a acc ha with h | h
      · rw [h]; exact hds d (List.mem_cons_self d rest)
      · exact hacc a h
  intro acc hacc x hx
  exact main cs acc cs hacc (fun d hd => hd) x hx

theorem tokenBoost_nonneg (c : Cand) : 0 ≤ tokenBoost c := by
  unfold tokenBoost
  positivity

/-- C2 (amended): every candidate returned by `gen_candidates` has a score of
at least −2.0; the clamped score (identity, one-step, two-step average,
deduplication best) lies in [−2, 2], and the reported score additionally
carries the post-clamp token adjustment, so it is bounded by
2.0 + 0.01 × (number of whitespace tokens of the candidate). -/
theorem gen_candidates_score_bounds (line : List Char) (k : ℕ)
    (lex : List (List Char)) (aggr : Bool) (c : Cand)
    (hc : c ∈ gen_candidates line k lex aggr) :
    -2 ≤ c.score ∧ c.score ≤ 2 + ((splitWs c.cand).length : ℚ) * (1/100) := by
  unfold gen_candidates at hc
  have hc' := List.mem_of_mem_take hc
  rw [List.mem_map] at hc'
  obtain ⟨d, hd, hdc⟩ := hc'
  have hdmem : d ∈ dedupBest (genPreDedup line lex aggr) := sortDesc_mem _ d hd
  have hbound : -2 ≤ d.score ∧ d.score ≤ 2 :=
    dedupBest_score_pred (fun s => -2 ≤ s ∧ s ≤ 2) _
      (fun a ha => genPreDedup_score_bounds line lex aggr a ha) d hdmem
  have hboost := tokenBoost_nonneg d
  rw [← hdc]
  unfold addBoost tokenBoost
  constructor
  · simp only []
    linarith [hbound.1]
  · simp only []
    linarith [hbound.2]

unseal Rat.add Rat.mul Rat.inv Rat.sub in
/-- Witness for the amended C2 at a concrete input. -/
theorem gen_candidates_score_bounds_witness :
    (⟨['क'], 49/50, ["identity"]⟩ : Cand) ∈ gen_candidates ['क'] 8 [] false
    ∧ (-2 ≤ (49/50 : ℚ)
        ∧ (49/50 : ℚ) ≤ 2 + ((splitWs ['क']).length : ℚ) * (1/100)) := by
  have hm : (⟨['क'], 49/50, ["identity"]⟩ : Cand) ∈ gen_candidates ['क'] 8 [] false := by
    decide
  exact ⟨hm, gen_candidates_score_bounds ['क'] 8 [] false _ hm⟩

/-- A line consisting of 34 space-separated copies of the lexicon word "राम":
its identity candidate scores 1.67 clamped, and the post-clamp token boost
0.01 × 34 lifts the reported score to 2.01 > 2. -/
def lineRama34 : List Char := (String.intercalate " " (List.replicate 34 "राम")).toList

set_option maxRecDepth 10000 in
unseal Rat.add Rat.mul Rat.inv Rat.sub in
/-- C2 (counterexample): on `lineRama34` the top candidate returned by
`gen_candidates` reports a score of 2.01, which lies outside [−2.0, 2.0]. -/
theorem gen_candidates_score_exceeds_clamp :
    ((gen_candidates lineRama34 8 DEFAULT_LEXICON false).map Cand.score).head?
      = some (201/100)
    ∧ ((2:ℚ) < 201/100) := by
  constructor
  · decide
  · decide

/-! ### Sortedness of the pre-boost list -/

theorem insertDesc_sorted (c : Cand) (l : List Cand)
    (h : l.Sorted (fun a b => b.score ≤ a.score)) :
    (insertDesc c l).Sorted (fun a b => b.score ≤ a.score) := by
  induction l with
  | nil => simp [insertDesc]
  | cons e rest ih =>
    rw [List.sorted_cons] at h
    obtain ⟨he, hrest⟩ := h
    simp only [insertDesc]
    split
    · rename_i hge
      rw [List.sorted_cons]
      refine ⟨?_, ih hrest⟩
      intro b hb
      rcases insertDesc_mem c b rest hb with h | h
      · rw [h]; exact hge
      · exact he b h
    · rename_i hlt
      have hcle : e.score ≤ c.score := le_of_lt (lt_of_not_ge hlt)
      rw [List.sorted_cons]
      refine ⟨?_, List.sorted_cons.mpr ⟨he, hrest⟩⟩
      intro b hb
      rw [List.mem_cons] at hb
      rcases hb with hb | hb
      · rw [hb]; exact hcle
      · exact le_trans (he b hb) hcle

theorem sortDesc_sorted (cs : List Cand) :
    (sortDesc cs).Sorted (fun a b => b.score ≤ a.score) := by
  unfold sortDesc
  suffices h : ∀ acc : List Cand, acc.Sorted (fun a b => b.score ≤ a.score) →
      (cs.foldl (fun acc c => insertDesc c acc) acc).Sorted
        (fun a b => b.score ≤ a.score) by
    exact h [] (by simp)
  induction cs with
  | nil => intro acc hacc; exact hacc
  | cons c rest ih =>
    intro acc hacc
    simp only [List.foldl_cons]
    exact ih _ (insertDesc_sorted c acc hacc)

/-- C3 (amended): `gen_candidates` returns at most `k` candidates; the
deduplicated list is sorted in descending order of its (pre-adjustment,
clamped) scores, and the 0.01 × token-count adjustment is added after that
sort and before the truncation to `k` — so the reported scores need not be
descending. -/
theorem gen_candidates_length_and_sort (line : List Char) (k : ℕ)
    (lex : List (List Char)) (aggr : Bool) :
    (gen_candidates line k lex aggr).length ≤ k
    ∧ (genSorted line lex aggr).Sorted (fun a b => b.score ≤ a.score)
    ∧ gen_candidates line k lex aggr
        = ((genSorted line lex aggr).map addBoost).take k := by
  refine ⟨?_, sortDesc_sorted _, rfl⟩
  unfold gen_candidates
  rw [List.length_take]
  exact min_le_left _ _

/-- A line on which the identity candidate ("रऽम", 1 token) and the
avagraha-split candidate ("र म", 2 tokens) tie at clamped score 0.97; after
the post-sort token adjustment, the reported scores are 0.98 followed by
0.99 — not descending. -/
def lineRaAvagrahaMa : List Char := ['र', 'ऽ', 'म']

unseal Rat.add Rat.mul Rat.inv Rat.sub in
/-- C3 (counterexample): the list returned by `gen_candidates` on
`lineRaAvagrahaMa` reports scores [0.98, 0.99], which is not sorted in
descending order of the reported scores. -/
theorem gen_candidates_reported_scores_not_sorted :
    ((gen_candidates lineRaAvagrahaMa 8 DEFAULT_LEXICON false).map Cand.score)
      = [49/50, 99/100]
    ∧ ((49:ℚ)/50 < 99/100) := by
  constructor
  · decide
  · decide

/-- A single-token line carrying an avagraha and the sandhi features
ा ो े ी ः, whose post-avagraha split contains the lexicon word "रामो": ten
distinct candidates strictly outscore the identity candidate, which is
therefore truncated away from the top 8. -/
def lineAvagrahaFeatures : List Char := "रामोऽस्तिकीमेः".toList

set_option maxRecDepth 10000 in
unseal Rat.add Rat.mul Rat.inv Rat.sub in
/-- C4 (counterexample): on `lineAvagrahaFeatures`, with default parameters
(`k = 8`, default lexicon, no aggressive rules), no candidate in the returned
list has the whitespace-normalized original text, and none is tagged
`["identity"]`: the identity candidate was truncated away. -/
theorem gen_candidates_identity_truncated_away :
    ((gen_candidates lineAvagrahaFeatures 8 DEFAULT_LEXICON false).all
      (fun c => !(decide (c.cand = lineAvagrahaFeatures)
        && decide (c.rules = ["identity"])))) = true
    ∧ wsNorm (pyStrip lineAvagrahaFeatures) = lineAvagrahaFeatures := by
  constructor
  · decide
  · decide

/-! ### Tokens and whitespace normalization

`wsNorm` is the single-space join of `splitWs`, so two strings have the same
whitespace-normalized form exactly when they have the same token list. -/

theorem splitWs_ws_cons (c : Char) (l : List Char) (h : isWsChar c = true) :
    splitWs (c :: l) = splitWs l := by
  rw [splitWs.eq_def]
  simp [h]

theorem splitWs_sound : ∀ l : List Char, ∀ t ∈ splitWs l,
    t ≠ [] ∧ ∀ x ∈ t, isWsChar x = false
  | [] => by simp [splitWs]
  | c :: rest => by
    intro t ht
    by_cases hw : isWsChar c
    · rw [splitWs_ws_cons c rest hw] at ht
      exact splitWs_sound rest t ht
    · rw [splitWs.eq_def] at ht
      simp only [hw] at ht
      simp only [Bool.false_eq_true, if_false] at ht
      rcases hsp : splitWs rest with _ | ⟨t0, ts0⟩
      · rw [hsp] at ht
        simp only [List.mem_singleton] at ht
        subst ht
        refine ⟨by simp, ?_⟩
        intro x hx
        simp only [List.mem_singleton] at hx
        subst hx
        simpa using hw
      · rw [hsp] at ht
        rcases rest with _ | ⟨d, rest2⟩
        · rw [splitWs.eq_def] at hsp
          simp at hsp
        · by_cases hd : isWsChar d
          · simp only [hd, if_true, List.mem_cons] at ht
            rcases ht with ht | ht
            · subst ht
              refine ⟨by simp, ?_⟩
              intro x hx
              simp only [List.mem_singleton] at hx
              subst hx
              simpa using hw
            · exact splitWs_sound (d :: rest2) t
                (by rw [hsp]; exact List.mem_cons.mpr ht)
          · simp only [hd] at ht
            simp only [Bool.false_eq_true, if_false, List.mem_cons] at ht
            rcases ht with ht | ht
            · subst ht
              have h0 := splitWs_sound (d :: rest2) t0
                (by rw [hsp]; exact List.mem_cons_self _ _)
              refine ⟨by simp, ?_⟩
              intro x hx
              rw [List.mem_cons] at hx
              rcases hx with hx | hx
              · subst hx; simpa using hw
              · exact h0.2 x hx
            · exact splitWs_sound (d :: rest2) t
                (by rw [hsp]; exact List.mem_cons_of_mem t0 ht)

theorem splitWs_token : ∀ t : List Char, t ≠ [] →
    (∀ x ∈ t, isWsChar x = false) → splitWs t = [t]
  | [], h, _ => absurd rfl h
  | [c], _, hx => by
    have hc : isWsChar c = false := hx c (by simp)
    rw [splitWs.eq_def]
    simp only [hc, Bool.false_eq_true, if_false]
    rfl
  | c :: c2 :: t', _, hx => by
    have hc : isWsChar c = false := hx c (by simp)
    have hc2 : isWsChar c2 = false := hx c2 (by simp)
    have ih := splitWs_token (c2 :: t') (by simp)
      (fun x hxm => hx x (List.mem_cons_of_mem c hxm))
    rw [splitWs.eq_def]
    simp only [hc, Bool.false_eq_true, if_false, ih, hc2]

theorem splitWs_token_append : ∀ (t r : List Char), t ≠ [] →
    (∀ x ∈ t, isWsChar x = false) → splitWs (t ++ ' ' :: r) = t :: splitWs r
  | [], _, h, _ => absurd rfl h
  | [c], r, _, hx => by
    have hc : isWsChar c = false := hx c (by simp)
    have hsw : isWsChar ' ' = true := by decide
    rw [List.singleton_append, splitWs.eq_def]
    simp only [hc, Bool.false_eq_true, if_false]
    rw [splitWs_ws_cons ' ' r hsw]
    rcases hsp : splitWs r with _ | ⟨t0, ts0⟩
    · rfl
    · simp only [hsw, if_true]
  | c :: c2 :: t', r, _, hx => by
    have hc : isWsChar c = false := hx c (by simp)
    have hc2 : isWsChar c2 = false := hx c2 (by simp)
    have ih := splitWs_token_append (c2 :: t') r (by simp)
      (fun x hxm => hx x (List.mem_cons_of_mem c hxm))
    rw [List.cons_append, splitWs.eq_def]
    simp only [hc, Bool.false_eq_true, if_false, ih, hc2]
    simp only [List.cons_append, hc2, Bool.false_eq_true, if_false]

/-- The `' '`-separated tail of a single-space join. -/
def joinTail : List (List Char) → List Char
  | [] => []
  | u :: us => ' ' :: u ++ joinTail us

/-- Single-space join (the shape of `wsNorm`'s output). -/
def joinSp : List (List Char) → List Char
  | [] => []
  | t :: ts => t ++ joinTail ts

theorem wsNorm_eq_joinSp (l : List Char) : wsNorm l = joinSp (splitWs l) := by
  have hfold : ∀ (ts : List (List Char)) (a : List Char),
      ts.foldl (fun acc u => acc ++ ' ' :: u) a = a ++ joinTail ts := by
    intro ts
    induction ts with
    | nil => intro a; simp [joinTail]
    | cons u us ih =>
      intro a
      simp only [List.foldl_cons, ih, joinTail]
      simp
  rcases hsp : splitWs l with _ | ⟨t, ts⟩
  · unfold wsNorm
    rw [hsp]
    rfl
  · unfold wsNorm
    rw [hsp]
    dsimp only
    rw [hfold ts t, joinSp]

theorem splitWs_joinSp : ∀ ts : List (List Char),
    (∀ t ∈ ts, t ≠ [] ∧ ∀ x ∈ t, isWsChar x = false) → splitWs (joinSp ts) = ts
  | [], _ => rfl
  | [t], h => by
    rw [joinSp, joinTail, List.append_nil]
    exact splitWs_token t (h t (by simp)).1 (h t (by simp)).2
  | t :: u :: us, h => by
    have hstep : joinSp (t :: u :: us) = t ++ ' ' :: joinSp (u :: us) := by
      rw [joinSp, joinTail, joinSp]
      simp
    rw [hstep,
      splitWs_token_append t (joinSp (u :: us)) (h t (by simp)).1 (h t (by simp)).2,
      splitWs_joinSp (u :: us) (fun v hv => h v (List.mem_cons_of_mem t hv))]

/-- Tokenizing is invariant under whitespace normalization; hence equal
`wsNorm`s mean equal token lists. -/
theorem splitWs_wsNorm (l : List Char) : splitWs (wsNorm l) = splitWs l := by
  rw [wsNorm_eq_joinSp, splitWs_joinSp (splitWs l) (splitWs_sound l)]

theorem tokens_eq_of_wsNorm_eq (a b : List Char) (h : wsNorm a = wsNorm b) :
    splitWs a = splitWs b := by
  rw [← splitWs_wsNorm a, h, splitWs_wsNorm b]

/-- Concatenating the tokens gives the input minus whitespace. -/
theorem splitWs_flatten : ∀ l : List Char,
    (splitWs l).flatten = l.filter (fun c => !isWsChar c)
  | [] => rfl
  | c :: rest => by
    have ih := splitWs_flatten rest
    by_cases hw : isWsChar c
    · rw [splitWs_ws_cons c rest hw, ih, List.filter_cons]
      simp [hw]
    · rw [splitWs.eq_def]
      simp only [hw, Bool.false_eq_true, if_false]
      rcases hsp : splitWs rest with _ | ⟨t0, ts0⟩
      · rw [hsp] at ih
        simp only [List.flatten_nil] at ih
        simp [List.filter_cons, hw, ← ih]
      · rw [hsp] at ih
        rcases rest with _ | ⟨d, rest2⟩
        · rw [splitWs.eq_def] at hsp
          simp at hsp
        · by_cases hd : isWsChar d
          · simp only [hd, if_true, List.flatten_cons]
            rw [List.filter_cons_of_pos (by simp [hw])]
            rw [← ih]
            simp
          · simp only [hd, Bool.false_eq_true, if_false, List.flatten_cons]
            rw [List.filter_cons_of_pos (by simp [hw])]
            rw [← ih]
            simp

/-! ### The score cap: clamped score without the nonnegative penalties -/

/-- An upper bound for any rule-generated candidate's `_baseline_score`,
depending only on the candidate's token list: 1 − 0.25 × iso + 0.7 × lexfrac
− 0.03, clamped.  For the identity candidate it is exact. -/
def capScore (cand : List Char) (lexicon : List (List Char)) : ℚ :=
  pyClamp (1
    - (1/4) * ((splitWs cand).countP
        (fun t => t.length == 1 && isIndepVowel (t.headD ' ')) : ℚ)
    + (7/10) * (if (splitWs cand).length = 0 then 0
        else ((splitWs cand).countP (fun t => decide (t ∈ lexicon)) : ℚ)
          / ((splitWs cand).length : ℚ))
    - 3/100)

theorem capScore_eq_of_tokens (a b : List Char) (lexicon : List (List Char))
    (h : splitWs a = splitWs b) : capScore a lexicon = capScore b lexicon := by
  unfold capScore
  rw [h]

theorem pyClamp_mono (a b : ℚ) (h : a ≤ b) : pyClamp a ≤ pyClamp b := by
  unfold pyClamp
  split_ifs <;> linarith

theorem baseline_le_cap (orig cand : List Char) (name : String)
    (lexicon : List (List Char)) (hname : name ≠ "") :
    _baseline_score orig cand name lexicon ≤ capScore cand lexicon := by
  unfold _baseline_score capScore
  apply pyClamp_mono
  dsimp only
  rw [if_pos hname]
  have habs : 0 ≤ |(cand.length : ℚ) - (orig.length : ℚ)| := abs_nonneg _
  by_cases ht : (splitWs cand).length ≠ 0
  · rw [if_pos ht, if_neg (fun h => ht h)]
    split_ifs <;> linarith
  · rw [if_neg ht, if_pos (by omega : (splitWs cand).length = 0)]
    split_ifs <;> linarith

theorem identity_eq_cap (t : List Char) (lexicon : List (List Char)) :
    _baseline_score t t "identity" lexicon = capScore t lexicon := by
  unfold _baseline_score capScore
  dsimp only
  have haggr : isAggressiveRule "identity" = false := by decide
  have hdiff : |(t.length : ℚ) - (t.length : ℚ)| = 0 := by
    rw [sub_self, abs_zero]
  rw [haggr, hdiff]
  simp only [Bool.false_eq_true, if_false]
  rw [if_pos (by decide : ("identity" : String) ≠ "")]
  by_cases ht : (splitWs t).length ≠ 0
  · rw [if_pos ht, if_neg (fun h => ht h)]
    ring
  · rw [if_neg ht, if_pos (by omega : (splitWs t).length = 0)]
    ring

/-! ### Space insertion

`SpacedOf t c` holds when `c` arises from `t` purely by inserting space
characters; the whitespace-only generator rules (visarga/anusvara spacing,
doubled-consonant splitting, cluster splitting) all produce such outputs. -/

inductive SpacedOf : List Char → List Char → Prop
  | nil : SpacedOf [] []
  | cons (c : Char) (t₁ t₂ : List Char) : SpacedOf t₁ t₂ → SpacedOf (c :: t₁) (c :: t₂)
  | space (t₁ t₂ : List Char) : SpacedOf t₁ t₂ → SpacedOf t₁ (' ' :: t₂)

theorem SpacedOf.rfl : ∀ l : List Char, SpacedOf l l
  | [] => SpacedOf.nil
  | c :: rest => SpacedOf.cons c rest rest (SpacedOf.rfl rest)

theorem SpacedOf.append_left (x : List Char) {y z : List Char}
    (h : SpacedOf y z) : SpacedOf (x ++ y) (x ++ z) := by
  induction x with
  | nil => exact h
  | cons c rest ih => exact SpacedOf.cons c _ _ ih

theorem SpacedOf.insert (u v : List Char) : SpacedOf (u ++ v) (u ++ ' ' :: v) :=
  SpacedOf.append_left u (SpacedOf.space v v (SpacedOf.rfl v))

theorem spacedOf_replaceAll_pad (χ : Char) : ∀ t : List Char,
    SpacedOf t (replaceAll χ [' ', χ, ' '] t)
  | [] => SpacedOf.nil
  | c :: rest => by
    rw [replaceAll]
    by_cases hc : c = χ
    · rw [if_pos hc, hc]
      exact SpacedOf.space _ _ (SpacedOf.cons χ _ _
        (SpacedOf.space _ _ (spacedOf_replaceAll_pad χ rest)))
    · rw [if_neg hc]
      exact SpacedOf.cons c _ _ (spacedOf_replaceAll_pad χ rest)

theorem spacedOf_subDouble : ∀ t : List Char, SpacedOf t (subDouble t)
  | [] => SpacedOf.nil
  | [a] => SpacedOf.rfl [a]
  | a :: b :: rest => by
    rw [subDouble]
    by_cases hd : isCons a && a = b
    · rw [if_pos hd]
      exact SpacedOf.cons a _ _ (SpacedOf.space _ _
        (SpacedOf.cons b _ _ (spacedOf_subDouble rest)))
    · rw [if_neg hd]
      exact SpacedOf.cons a _ _ (spacedOf_subDouble (b :: rest))

/-- Space insertion preserves every count of non-space characters. -/
theorem spacedOf_countP (p : Char → Bool) (hp : p ' ' = false) {t c : List Char}
    (h : SpacedOf t c) : c.countP p = t.countP p := by
  induction h with
  | nil => rfl
  | cons d t₁ t₂ _ ih => rw [List.countP_cons, List.countP_cons, ih]
  | space t₁ t₂ _ ih => rw [List.countP_cons, ih, hp]; rfl

/-- Count accounting for global single-character replacement:
`countP p (replaceAll χ ρ t) + count χ t · [p χ] = countP p t + count χ t · countP p ρ`. -/
theorem replaceAll_countP (χ : Char) (ρ : List Char) (p : Char → Bool) :
    ∀ t : List Char,
    (replaceAll χ ρ t).countP p + t.count χ * (if p χ then 1 else 0)
      = t.countP p + t.count χ * ρ.countP p
  | [] => by simp [replaceAll]
  | c :: rest => by
    have ih := replaceAll_countP χ ρ p rest
    rw [replaceAll]
    by_cases hc : c = χ
    · subst hc
      rw [if_pos rfl, List.countP_append, List.countP_cons, List.count_cons_self,
        Nat.add_mul, Nat.add_mul, one_mul, one_mul]
      by_cases hpc : p c
      · rw [if_pos hpc] at ih ⊢
        generalize rest.count c * ρ.countP p = X at ih ⊢
        omega
      · rw [if_neg hpc] at ih ⊢
        generalize rest.count c * ρ.countP p = X at ih ⊢
        omega
    · rw [if_neg hc, List.countP_cons, List.count_cons_of_ne (fun h => hc h.symm),
        List.countP_cons]
      by_cases hpc : p c
      · rw [if_pos hpc]
        by_cases hpχ : p χ
        · rw [if_pos hpχ] at ih ⊢
          generalize rest.count χ * ρ.countP p = X at ih ⊢
          omega
        · rw [if_neg hpχ] at ih ⊢
          generalize rest.count χ * ρ.countP p = X at ih ⊢
          omega
      · rw [if_neg hpc]
        by_cases hpχ : p χ
        · rw [if_pos hpχ] at ih ⊢
          generalize rest.count χ * ρ.countP p = X at ih ⊢
          omega
        · rw [if_neg hpχ] at ih ⊢
          generalize rest.count χ * ρ.countP p = X at ih ⊢
          omega

/-! ### The four irreversibility measures -/

/-- Characters that no rule output ever contains. -/
def inN (x : Char) : Bool := decide (x ∈ (['ा', 'े', 'ो', 'ौ', 'ै', 'ऽ'] : List Char))

def inM2 (x : Char) : Bool := decide (x ∈ (['ी', 'ू'] : List Char))

def isVisChar (x : Char) : Bool := x = 'ः'

def isAnuChar (x : Char) : Bool := x = 'ं'

/-- A global character-replacement rule contradicts preservation of any
count whose predicate holds on the pattern and vanishes on the replacement. -/
theorem charRule_count_contr (χ : Char) (ρ t c : List Char) (p : Char → Bool)
    (hχ : p χ = true) (hρ : ρ.countP p = 0) (hmem : χ ∈ t)
    (hc : c = replaceAll χ ρ t) (heq : c.countP p = t.countP p) : False := by
  have h := replaceAll_countP χ ρ p t
  rw [hρ, hχ, if_pos rfl, ← hc, heq] at h
  have hcnt : 0 < t.count χ := List.count_pos_iff.mpr hmem
  omega

/-! ### Classifying the one-step rule outputs -/

/-- The global character-replacement rules of the generator (pattern char and
replacement): the non-whitespace-only `REVERSE_RULES` entries, the vowel
variants, and the visarga variants. -/
def charRules : List (Char × List Char) :=
  [('ा', ['अ', 'अ']), ('े', ['अ', 'इ']), ('ो', ['अ', 'उ']), ('ी', ['इ', 'इ']),
   ('ू', ['उ', 'उ']), ('ऽ', [' ']), ('ौ', ['अ', 'उ']), ('ै', ['अ', 'इ']),
   ('े', ['अ', 'ी']), ('ो', ['अ', 'ू']), ('ः', ['स', '्', ' ']),
   ('ः', ['त', '्', ' '])]

/-- Every one-step candidate text is a space insertion, a global
character replacement with its pattern present, or a single-anusvara nasal
substitution. -/
inductive Shape (t : List Char) : List Char → Prop
  | ws (c : List Char) : SpacedOf t c → Shape t c
  | chrule (χ : Char) (ρ c : List Char) :
      (χ, ρ) ∈ charRules → χ ∈ t → c = replaceAll χ ρ t → Shape t c
  | nasal (u v : List Char) (nas : Char) :
      t = u ++ 'ं' :: v → nas ∈ (['ङ', 'ञ', 'ण', 'न', 'म'] : List Char) →
      Shape t (u ++ nas :: '्' :: v)

theorem mem_ite_singleton {α : Type} {x a : α} {cnd : Prop} [Decidable cnd]
    (hx : x ∈ (if cnd then [a] else [])) : cnd ∧ x = a := by
  split at hx
  · simp only [List.mem_singleton] at hx
    exact ⟨by assumption, hx⟩
  · simp at hx

theorem mem_ite_pair {α : Type} {x a b : α} {cnd : Prop} [Decidable cnd]
    (hx : x ∈ (if cnd then [a, b] else [])) : cnd ∧ (x = a ∨ x = b) := by
  split at hx
  · simp only [List.mem_cons, List.mem_singleton, List.not_mem_nil, or_false] at hx
    exact ⟨by assumption, hx⟩
  · simp at hx

theorem charRule_mem (t : List Char) (χ : Char) (ρ : List Char) (name : String)
    (x : List Char × String) (hx : x ∈ charRule t χ ρ name) :
    x = (replaceAll χ ρ t, name) ∧ χ ∈ t := by
  unfold charRule at hx
  have h := mem_ite_singleton hx
  exact ⟨h.2, by simpa using h.1⟩

set_option linter.unreachableTactic false in
set_option linter.unusedTactic false in
theorem nasalGroup_shape (nxt : Char) (repl : List Char) (name : String)
    (h : nasalGroup nxt = some (repl, name)) :
    name ≠ "" ∧ ∃ nas, nas ∈ (['ङ', 'ञ', 'ण', 'न', 'म'] : List Char)
      ∧ repl = [nas, '्'] := by
  unfold nasalGroup at h
  split_ifs at h <;>
    first
      | (injection h with h2
         rw [Prod.mk.injEq] at h2
         obtain ⟨hr, hn⟩ := h2
         subst hr
         subst hn
         exact ⟨by decide, by exact ⟨_, by decide, rfl⟩⟩)
      | cases h

theorem anusvaraGo_shape : ∀ (rest pre orig : List Char) (x : List Char × String),
    x ∈ anusvaraVariantsGo orig pre rest →
      x.2 ≠ "" ∧
      ((∃ u v nas, pre ++ rest = u ++ 'ं' :: v ∧ x.1 = u ++ nas :: '्' :: v
          ∧ nas ∈ (['ङ', 'ञ', 'ण', 'न', 'म'] : List Char))
       ∨ x.1 = replaceAll ANUSVARA [' ', 'ं', ' '] orig)
  | [], pre, orig, x => by simp [anusvaraVariantsGo]
  | c :: r, pre, orig, x => by
    intro hx
    rw [anusvaraVariantsGo.eq_def] at hx
    dsimp only at hx
    rw [List.mem_append] at hx
    rcases hx with hx | hx
    · split at hx
      · rename_i hcond
        rcases r with _ | ⟨nxt, r2⟩
        · simp at hx
        · dsimp only at hx
          rcases hng : nasalGroup nxt with _ | ⟨repl, name⟩
          · rw [hng] at hx
            simp only [List.mem_singleton] at hx
            subst hx
            exact ⟨(by decide : ("anusvara->space" : String) ≠ ""), Or.inr rfl⟩
          · rw [hng] at hx
            simp only [List.mem_singleton] at hx
            subst hx
            obtain ⟨hname, nas, hnas, hrepl⟩ := nasalGroup_shape nxt repl name hng
            refine ⟨hname, Or.inl ⟨pre, nxt :: r2, nas, ?_, ?_, hnas⟩⟩
            · have hc : c = ANUSVARA := by
                rcases Bool.and_eq_true _ _ |>.mp hcond with ⟨h1, _⟩
                simpa using h1
              rw [hc]
              rfl
            · rw [hrepl]
              simp
      · simp at hx
    · have ih := anusvaraGo_shape r (pre ++ [c]) orig x hx
      refine ⟨ih.1, ?_⟩
      rcases ih.2 with ⟨u, v, nas, h1, h2, h3⟩ | h
      · refine Or.inl ⟨u, v, nas, ?_, h2, h3⟩
        rw [← h1]
        simp
      · exact Or.inr h

theorem clusterGo_shape : ∀ (rest pre : List Char) (b : Bool) (x : List Char × String),
    x ∈ clusterGo pre b rest → x.2 = "consonant-cluster-split"
      ∧ ∃ u v, pre ++ rest = u ++ v ∧ x.1 = u ++ ' ' :: v
  | [], pre, b, x => by simp [clusterGo]
  | c :: r, pre, b, x => by
    intro hx
    rw [clusterGo.eq_def] at hx
    dsimp only at hx
    rw [List.mem_append] at hx
    rcases hx with hx | hx
    · split at hx
      · simp only [List.mem_singleton] at hx
        subst hx
        exact ⟨rfl, pre, c :: r, rfl, rfl⟩
      · simp at hx
    · have ih := clusterGo_shape r (pre ++ [c]) (isCons c) x hx
      refine ⟨ih.1, ?_⟩
      obtain ⟨u, v, h1, h2⟩ := ih.2
      refine ⟨u, v, ?_, h2⟩
      rw [← h1]
      simp

theorem pair_snd_ne {α : Type} (a : α) (s : String) (h : s ≠ "") : (a, s).2 ≠ "" := h

theorem oneStepPairs_shape (t : List Char) (p : List Char × String)
    (hp : p ∈ oneStepPairs t) : p.2 ≠ "" ∧ Shape t p.1 := by
  unfold oneStepPairs at hp
  simp only [List.mem_append] at hp
  rcases hp with (((hp | hp) | hp) | hp) | hp
  · -- regexPairs
    unfold regexPairs at hp
    simp only [List.mem_append] at hp
    rcases hp with (((((((((hp | hp) | hp) | hp) | hp) | hp) | hp) | hp) | hp) | hp) | hp
    · obtain ⟨hx, hm⟩ := charRule_mem _ _ _ _ _ hp
      rw [hx]
      exact ⟨pair_snd_ne _ _ (by decide), Shape.chrule _ _ _ (by decide) hm rfl⟩
    · obtain ⟨hx, hm⟩ := charRule_mem _ _ _ _ _ hp
      rw [hx]
      exact ⟨pair_snd_ne _ _ (by decide), Shape.chrule _ _ _ (by decide) hm rfl⟩
    · obtain ⟨hx, hm⟩ := charRule_mem _ _ _ _ _ hp
      rw [hx]
      exact ⟨pair_snd_ne _ _ (by decide), Shape.chrule _ _ _ (by decide) hm rfl⟩
    · obtain ⟨hx, hm⟩ := charRule_mem _ _ _ _ _ hp
      rw [hx]
      exact ⟨pair_snd_ne _ _ (by decide), Shape.chrule _ _ _ (by decide) hm rfl⟩
    · obtain ⟨hx, hm⟩ := charRule_mem _ _ _ _ _ hp
      rw [hx]
      exact ⟨pair_snd_ne _ _ (by decide), Shape.chrule _ _ _ (by decide) hm rfl⟩
    · obtain ⟨hx, _⟩ := charRule_mem _ _ _ _ _ hp
      rw [hx]
      exact ⟨pair_snd_ne _ _ (by decide), Shape.ws _ (spacedOf_replaceAll_pad 'ः' t)⟩
    · obtain ⟨hx, _⟩ := charRule_mem _ _ _ _ _ hp
      rw [hx]
      exact ⟨pair_snd_ne _ _ (by decide), Shape.ws _ (spacedOf_replaceAll_pad 'ं' t)⟩
    · obtain ⟨hx, hm⟩ := charRule_mem _ _ _ _ _ hp
      rw [hx]
      exact ⟨pair_snd_ne _ _ (by decide), Shape.chrule _ _ _ (by decide) hm rfl⟩
    · have h := mem_ite_singleton hp
      rw [h.2]
      exact ⟨pair_snd_ne _ _ (by decide), Shape.ws _ (spacedOf_subDouble t)⟩
    · obtain ⟨hx, hm⟩ := charRule_mem _ _ _ _ _ hp
      rw [hx]
      exact ⟨pair_snd_ne _ _ (by decide), Shape.chrule _ _ _ (by decide) hm rfl⟩
    · obtain ⟨hx, hm⟩ := charRule_mem _ _ _ _ _ hp
      rw [hx]
      exact ⟨pair_snd_ne _ _ (by decide), Shape.chrule _ _ _ (by decide) hm rfl⟩
  · -- vowelVariantPairs
    unfold vowelVariantPairs at hp
    simp only [List.mem_append] at hp
    rcases hp with (((hp | hp) | hp) | hp) | hp
    · have h := mem_ite_pair hp
      have hmem : 'े' ∈ t := by simpa using h.1
      rcases h.2 with hx | hx <;> rw [hx]
      · exact ⟨pair_snd_ne _ _ (by decide), Shape.chrule _ _ _ (by decide) hmem rfl⟩
      · exact ⟨pair_snd_ne _ _ (by decide), Shape.chrule _ _ _ (by decide) hmem rfl⟩
    · have h := mem_ite_pair hp
      have hmem : 'ो' ∈ t := by simpa using h.1
      rcases h.2 with hx | hx <;> rw [hx]
      · exact ⟨pair_snd_ne _ _ (by decide), Shape.chrule _ _ _ (by decide) hmem rfl⟩
      · exact ⟨pair_snd_ne _ _ (by decide), Shape.chrule _ _ _ (by decide) hmem rfl⟩
    · have h := mem_ite_singleton hp
      have hmem : 'ौ' ∈ t := by simpa using h.1
      rw [h.2]
      exact ⟨pair_snd_ne _ _ (by decide), Shape.chrule _ _ _ (by decide) hmem rfl⟩
    · have h := mem_ite_singleton hp
      have hmem : 'ै' ∈ t := by simpa using h.1
      rw [h.2]
      exact ⟨pair_snd_ne _ _ (by decide), Shape.chrule _ _ _ (by decide) hmem rfl⟩
    · have h := mem_ite_singleton hp
      have hmem : 'ा' ∈ t := by simpa using h.1
      rw [h.2]
      exact ⟨pair_snd_ne _ _ (by decide), Shape.chrule _ _ _ (by decide) hmem rfl⟩
  · -- visargaVariantPairs
    unfold visargaVariantPairs at hp
    have h := mem_ite_pair hp
    have hmem : 'ः' ∈ t := by simpa using h.1
    rcases h.2 with hx | hx <;> rw [hx]
    · exact ⟨pair_snd_ne _ _ (by decide), Shape.chrule _ _ _ (by decide) hmem rfl⟩
    · exact ⟨pair_snd_ne _ _ (by decide), Shape.chrule _ _ _ (by decide) hmem rfl⟩
  · -- anusvaraVariantPairs
    unfold anusvaraVariantPairs at hp
    have h := anusvaraGo_shape t [] t p hp
    refine ⟨h.1, ?_⟩
    rcases h.2 with ⟨u, v, nas, h1, h2, h3⟩ | h2
    · rw [List.nil_append] at h1
      rw [h2]
      exact Shape.nasal u v nas h1 h3
    · rw [h2]
      have hanu : ANUSVARA = 'ं' := by decide
      rw [hanu]
      exact Shape.ws _ (spacedOf_replaceAll_pad 'ं' t)
  · -- clusterPairs
    unfold clusterPairs at hp
    have h := clusterGo_shape t [] false p hp
    refine ⟨by rw [h.1]; decide, ?_⟩
    obtain ⟨u, v, h1, h2⟩ := h.2
    rw [List.nil_append] at h1
    rw [h2, h1]
    exact Shape.ws _ (SpacedOf.insert u v)

/-! ### The one-step score formula (C6) -/

/-- Number of isolated single-character independent-vowel tokens
(`len(t)==1 and re.match(r'[अ-औ]', t)`). -/
def isoVowelTokenCount (cand : List Char) : ℕ :=
  (splitWs cand).countP (fun t => t.length == 1 && isIndepVowel (t.headD ' '))

/-- Fraction of whitespace-delimited tokens present in the lexicon
(0 when there are no tokens). -/
def lexOverlapFrac (cand : List Char) (lexicon : List (List Char)) : ℚ :=
  let tokens := splitWs cand
  if tokens.length = 0 then 0
  else (tokens.countP (fun t => decide (t ∈ lexicon)) : ℚ) / (tokens.length : ℚ)

/-- C6: the one-step candidate score computed by `_baseline_score` equals
1.0, minus 0.25 per isolated single-character independent-vowel token, plus
0.7 × the fraction of whitespace tokens present in the lexicon, minus
0.02 × |length(candidate) − length(original)|, minus 0.1 when the rule name is
aggressive-tagged, minus a flat 0.03 when the rule name is nonempty, the
result clamped to [−2.0, 2.0]. -/
theorem baseline_score_formula (orig cand : List Char) (rule_name : String)
    (lexicon : List (List Char)) :
    _baseline_score orig cand rule_name lexicon
      = pyClamp (1
          - (1/4) * (isoVowelTokenCount cand : ℚ)
          + (7/10) * lexOverlapFrac cand lexicon
          - (1/50) * |(cand.length : ℚ) - (orig.length : ℚ)|
          - (if isAggressiveRule rule_name then (1/10 : ℚ) else 0)
          - (if rule_name ≠ "" then (3/100 : ℚ) else 0)) := by
  unfold _baseline_score isoVowelTokenCount lexOverlapFrac
  dsimp only
  congr 1
  split_ifs <;> first
    | (exfalso; rename_i hne heq; exact hne (fun h => heq h))
    | ring

/-! ## Normalizer (`scripts/utils.py`, `normalize_text`)

Unicode NFC normalization is modelled as the identity: the pipeline's
Devanagari inputs are NFC-stable and no claim depends on NFC folding; all the
other steps of `normalize_text` are modelled faithfully. -/

theorem dropWhile_length_le (p : Char → Bool) : ∀ l : List Char,
    (l.dropWhile p).length ≤ l.length
  | [] => le_refl _
  | c :: rest => by
    by_cases hp : p c
    · rw [List.dropWhile_cons_of_pos hp]
      exact le_trans (dropWhile_length_le p rest) (by simp)
    · rw [List.dropWhile_cons_of_neg hp]

def isDanda (c : Char) : Bool := c = '॥' || c = '।'

-- `re.sub(r'[॥।]+', ' ', text)`: each maximal danda run becomes one space.
-- `dandaDrop` consumes the remainder of a run already replaced.
mutual

def dandaSub : List Char → List Char
  | [] => []
  | c :: rest =>
    if isDanda c then ' ' :: dandaDrop rest
    else c :: dandaSub rest

def dandaDrop : List Char → List Char
  | [] => []
  | c :: rest =>
    if isDanda c then dandaDrop rest
    else c :: dandaSub rest

end

/-- The punctuation class of `_PUNCT_RE` (utils.py line 18). -/
def isPunct (c : Char) : Bool :=
  (0x2000 ≤ c.toNat && c.toNat ≤ 0x206F)
  || (0x2E00 ≤ c.toNat && c.toNat ≤ 0x2E7F)
  || decide (c ∈ ['.', ',', ';', ':', '"', '?', '!', '(', ')', '[', ']',
      Char.ofNat 0x7B, Char.ofNat 0x7D, '—', '-', '–', '/', '\\', '|', '<', '>',
      '@', '#', '$', '%', '^', '&', '*', '+', '=', '_', Char.ofNat 0x60, '~'])

-- `re.sub(r'\s+', ' ', text)`: collapse whitespace runs to single spaces.
-- `collapseDrop` consumes the remainder of a run already replaced.
mutual

def collapseWs : List Char → List Char
  | [] => []
  | c :: rest =>
    if isWsChar c then ' ' :: collapseDrop rest
    else c :: collapseWs rest

def collapseDrop : List Char → List Char
  | [] => []
  | c :: rest =>
    if isWsChar c then collapseDrop rest
    else c :: collapseWs rest

end

/-- `normalize_text` (utils.py lines 20–55), with NFC modelled as identity. -/
def normalize_text (l : List Char) : List Char :=
  let t1 := dandaSub l
  let t2 := replaceAll 'ॐ' [' ', 'ॐ', ' '] t1
  let t3 := t2.map (fun c => if isPunct c then ' ' else c)
  let t4 := t3.filter (fun c => 32 ≤ c.toNat)
  let t5 := collapseWs t4
  pyStrip t5

/-! ## Meter matcher (`match_chanda`, pipeline.py lines 85–204) -/

structure MeterTemplate where
  name : String
  total : ℕ
  padas : Option (List ℕ)
deriving DecidableEq, Repr

/-- `METER_TEMPLATES` (pipeline.py lines 87–98), in source order. -/
def METER_TEMPLATES : List MeterTemplate :=
  [⟨"Gayatri", 24, some [8, 8, 8]⟩,
   ⟨"Anushtubh", 32, some [8, 8, 8, 8]⟩,
   ⟨"Tristubh", 44, some [11, 11, 11, 11]⟩,
   ⟨"Jagati", 48, some [12, 12, 12, 12]⟩,
   ⟨"Pankti", 25, some [5, 5, 5, 5, 5]⟩,
   ⟨"Vasantatilaka", 56, some [14, 14, 14, 14]⟩,
   ⟨"Mandakranta", 68, some [17, 17, 17, 17]⟩,
   ⟨"ShardulaVikridita", 76, some [19, 19, 19, 19]⟩]

/-- `_chunk_syllables_into_padas` inner loop: `syllables[i:i+plen]` chunks. -/
def chunkGo (syllables : List (List Char)) : List ℕ → List (List (List Char))
  | [] => []
  | p :: ps => syllables.take p :: chunkGo (syllables.drop p) ps

/-- `_chunk_syllables_into_padas` (pipeline.py lines 100–113). -/
def chunkPadas (syllables : List (List Char)) (padas : List ℕ) :
    List (List (List Char)) :=
  if syllables.length ≠ padas.sum then [] else chunkGo syllables padas

def countG (labels : List String) : ℕ := labels.countP (fun l => l == "G")

/-- The per-pada guru fractions of the exact-alignment branch
(pipeline.py lines 149–155): for pada `idx` of length `len(part)`,
`labels[start:end].count('G') / max(1, len(part))`. -/
def perPadaGuruFracs (padas : List ℕ) (syllables : List (List Char))
    (labels : List String) : List ℚ :=
  let parts := chunkPadas syllables padas
  (List.range parts.length).map (fun idx =>
    let part := parts.getD idx []
    let start := (padas.take idx).sum
    ((countG ((labels.take (start + part.length)).drop start)) : ℚ)
      / (max 1 part.length : ℚ))

/-- `avg_p_guru` (line 156): mean of the per-pada guru fractions. -/
def avgPadaGuruFrac (padas : List ℕ) (syllables : List (List Char))
    (labels : List String) : ℚ :=
  let per := perPadaGuruFracs padas syllables labels
  per.sum / (max 1 per.length : ℚ)

/-- `min(0.6, expected_total/100.0 + 0.4)` (lines 160 and 176). -/
def expectedGuruFrac (expected_total : ℕ) : ℚ :=
  min (6/10) ((expected_total : ℚ) / 100 + 4/10)

/-- One template's entry of the `match_chanda` results list (lines 128–200).
The real-exponent `total_diff ** 1.5` is abstracted as `pow15`. -/
structure ChandaEntry where
  meter : String
  score : ℚ
  total : ℕ
  expected_total : ℕ
  total_score : ℚ
  exact_total_bonus : ℚ
  guru_frac : ℚ
  expected_guru_frac_whole : ℚ
  guru_score : ℚ
  pada_score : ℚ
deriving DecidableEq, Repr

def matchEntry (pow15 : ℚ → ℚ) (syllables : List (List Char))
    (labels : List String) (tpl : MeterTemplate) : ChandaEntry :=
  let total := syllables.length
  let guru_frac : ℚ := (countG labels : ℚ) / (max 1 labels.length : ℚ)
  let expected_total := tpl.total
  let total_diff : ℚ :=
    |(total : ℚ) - (expected_total : ℚ)| / (max expected_total total : ℚ)
  let base_total_score : ℚ := max 0 (1 - pow15 total_diff)
  let exact_total_bonus : ℚ := if total = expected_total then 12/100 else 0
  let total_score : ℚ := min 1 (base_total_score + exact_total_bonus)
  -- `if padas:` — a None or empty pada list takes the neutral branch
  let pada_score : ℚ :=
    match tpl.padas with
    | some (p :: ps) =>
      if total = (p :: ps).sum then
        let guru_agreement : ℚ :=
          1 - min 1 |avgPadaGuruFrac (p :: ps) syllables labels
                      - expectedGuruFrac expected_total|
        (9/10) * 1 + (1/10) * guru_agreement
      else
        let mismatch_frac : ℚ :=
          |(total : ℚ) - ((p :: ps).sum : ℚ)| / (max (p :: ps).sum total : ℚ)
        max 0 ((25/100) * (1 - mismatch_frac))
    | _ => 4/10
  let expected_guru_frac_whole : ℚ := expectedGuruFrac expected_total
  let guru_score : ℚ := 1 - min 1 |guru_frac - expected_guru_frac_whole|
  let combined : ℚ :=
    match tpl.padas with
    | some (p :: ps) =>
      if total = (p :: ps).sum then
        (7/10) * total_score + (2/10) * pada_score + (1/10) * guru_score
      else (8/10) * total_score + (1/10) * pada_score + (1/10) * guru_score
    | _ => (8/10) * total_score + (1/10) * pada_score + (1/10) * guru_score
  ⟨tpl.name, combined, total, expected_total, total_score, exact_total_bonus,
    guru_frac, expected_guru_frac_whole, guru_score, pada_score⟩

/-- Stable descending insertion for `ChandaEntry`, modelling
`results.sort(key=lambda x: x['score'], reverse=True)`. -/
def insertDescE (c : ChandaEntry) : List ChandaEntry → List ChandaEntry
  | [] => [c]
  | e :: rest => if e.score ≥ c.score then e :: insertDescE c rest else c :: e :: rest

def sortDescE (cs : List ChandaEntry) : List ChandaEntry :=
  cs.foldl (fun acc c => insertDescE c acc) []

/-- `match_chanda(syllables, labels, top_k)` (pipeline.py lines 116–204). -/
def match_chanda (pow15 : ℚ → ℚ) (syllables : List (List Char))
    (labels : List String) (top_k : ℕ) : List ChandaEntry :=
  (sortDescE (METER_TEMPLATES.map (matchEntry pow15 syllables labels))).take top_k

/-! ## Orchestrator (`infer_line`, pipeline.py lines 206–294) -/

/-- `meter_match_bonus` (pipeline.py lines 215–229). -/
def meter_match_bonus (sylls : List (List Char)) : ℚ :=
  let n := sylls.length
  if METER_TEMPLATES.any (fun tpl => n == tpl.total) then 30/100
  else
    (METER_TEMPLATES.map (fun tpl =>
      max 0 ((20/100) * (1 - |(n : ℚ) - (tpl.total : ℚ)| / (max n tpl.total : ℚ))))).foldl
      max 0

/-- A raw candidate as consumed by the `infer_line` loop: either a plain
string (the `use_sandhi=False` path) or a generator dict. -/
inductive RawCand where
  | str (text : List Char)
  | dict (c : Cand)
deriving DecidableEq, Repr

structure CandResult where
  candidate : List Char
  syllables : List (List Char)
  silver_labels : List String
  silver_conf : List ℚ
  silver_reasons : List String
  meta_rules : List String
  meta_score : Option ℚ
  avg_conf : ℚ
  lex_score : ℚ
  iso_frac : ℚ
  meter_bonus : ℚ
  combined_score : ℚ
deriving DecidableEq, Repr

/-- The body of the candidate loop of `infer_line` (pipeline.py lines 232–285).
`LEX` is the lexicon loaded from `data/lexicon.txt` (empty when missing). -/
def processCandidate (LEX : List (List Char)) (raw : RawCand) : CandResult :=
  let cand_text := match raw with | .dict c => c.cand | .str t => t
  let meta_rules := match raw with | .dict c => c.rules | .str _ => []
  let meta_score : Option ℚ := match raw with | .dict c => some c.score | .str _ => none
  let sylls := syllabify_devanagari cand_text
  let silver := sylls.map silver_label_syllable
  let labels := silver.map (fun s => s.1)
  let confidences := silver.map (fun s => s.2.1)
  let reasons := silver.map (fun s => s.2.2)
  let avg_conf : ℚ :=
    if confidences.length ≠ 0 then confidences.sum / (confidences.length : ℚ) else 0
  let iso_vowels : ℕ := sylls.countP (fun s => s.length == 1 && isIndepVowel (s.headD ' '))
  let iso_frac : ℚ := (iso_vowels : ℚ) / (max 1 sylls.length : ℚ)
  let tokens := splitWs cand_text
  let lex_found : ℕ :=
    if tokens ≠ [] ∧ LEX ≠ [] then tokens.countP (fun t => decide (t ∈ LEX)) else 0
  let lex_score : ℚ := if tokens ≠ [] then (lex_found : ℚ) / (tokens.length : ℚ) else 0
  let m_bonus := meter_match_bonus sylls
  let combined0 : ℚ :=
    (55/100) * avg_conf + (15/100) * lex_score + m_bonus - (9/10) * iso_frac
  let combined : ℚ :=
    match meta_score with
    | some s => (9/10) * combined0 + (1/10) * s
    | none => combined0
  ⟨cand_text, sylls, labels, confidences, reasons, meta_rules, meta_score,
    avg_conf, lex_score, iso_frac, m_bonus, combined⟩

/-- `max(cand_results, key=...)`: Python's `max` returns the first element
attaining the maximum. -/
def argmaxBy (key : CandResult → ℚ) (x : CandResult) : List CandResult → CandResult
  | [] => x
  | y :: rest => if key y > key x then argmaxBy key y rest else argmaxBy key x rest

structure InferResult where
  line : List Char
  candidates : List CandResult
  chosen_candidate : CandResult
  top_chanda : List ChandaEntry
deriving DecidableEq, Repr

/-- `infer_line(line, use_sandhi)` (pipeline.py lines 206–294).  The `[]`
branch of the `best` selection is unreachable (`gen_candidates` never returns
an empty list); Python's `max` would raise there. -/
def infer_line (pow15 : ℚ → ℚ) (LEX : List (List Char)) (line0 : List Char)
    (use_sandhi : Bool) : InferResult :=
  let line := normalize_text line0
  let raw_cands : List RawCand :=
    if use_sandhi then (gen_candidates line 8 DEFAULT_LEXICON false).map RawCand.dict
    else [RawCand.str line]
  let cand_results := raw_cands.map (processCandidate LEX)
  let best :=
    match cand_results with
    | c :: rest => argmaxBy (fun c => c.combined_score) c rest
    | [] => processCandidate LEX (RawCand.str line)
  ⟨line, cand_results, best, match_chanda pow15 best.syllables best.silver_labels 3⟩

/-! ### C7: exact-total template scoring -/

theorem matchEntry_exact (pow15 : ℚ → ℚ) (hpow : pow15 0 = 0)
    (tpl : MeterTemplate) (p : ℕ) (ps : List ℕ)
    (hp : tpl.padas = some (p :: ps)) (hsum : (p :: ps).sum = tpl.total)
    (syllables : List (List Char)) (labels : List String)
    (hs : syllables.length = tpl.total) :
    (matchEntry pow15 syllables labels tpl).total_score = 1
    ∧ (matchEntry pow15 syllables labels tpl).pada_score
        = 9/10 + (1/10) * (1 - min 1 |avgPadaGuruFrac (p :: ps) syllables labels
            - expectedGuruFrac tpl.total|)
    ∧ 9/10 ≤ (matchEntry pow15 syllables labels tpl).pada_score := by
  have hdiff : |(syllables.length : ℚ) - (tpl.total : ℚ)|
      / (max tpl.total syllables.length : ℚ) = 0 := by
    rw [hs, sub_self, abs_zero, zero_div]
  have htot : (matchEntry pow15 syllables labels tpl).total_score = 1 := by
    unfold matchEntry
    dsimp only
    rw [hdiff, hpow, hs, if_pos rfl]
    norm_num
  have hpada : (matchEntry pow15 syllables labels tpl).pada_score
      = 9/10 + (1/10) * (1 - min 1 |avgPadaGuruFrac (p :: ps) syllables labels
          - expectedGuruFrac tpl.total|) := by
    unfold matchEntry
    rw [hp]
    dsimp only
    rw [if_pos (by rw [hs, hsum])]
    ring
  refine ⟨htot, hpada, ?_⟩
  rw [hpada]
  have h1 : min 1 |avgPadaGuruFrac (p :: ps) syllables labels
      - expectedGuruFrac tpl.total| ≤ 1 := min_le_left _ _
  linarith

/-- C7: for every meter template in the library that declares pada lengths
summing to its expected total, and every syllable/label sequence of exactly
that length, `match_chanda`'s entry for that template has `total_score = 1`
(the `clamp(1 − diff^1.5, 0, 1)` value plus the +0.12 exact-total bonus,
re-clamped to 1.0) and `pada_score = 0.9 + 0.1 × guru_agreement ≥ 0.9`, where
`guru_agreement = 1 − clamp(|avg per-pada heavy-fraction −
min(0.6, total/100 + 0.4)|, 0, 1)`. -/
theorem match_chanda_exact_template_scores (pow15 : ℚ → ℚ) (hpow : pow15 0 = 0)
    (tpl : MeterTemplate) (htpl : tpl ∈ METER_TEMPLATES)
    (padas : List ℕ) (hp : tpl.padas = some padas) (hsum : padas.sum = tpl.total)
    (syllables : List (List Char)) (labels : List String)
    (hs : syllables.length = tpl.total) (_hl : labels.length = tpl.total) :
    (matchEntry pow15 syllables labels tpl).total_score = 1
    ∧ (matchEntry pow15 syllables labels tpl).pada_score
        = 9/10 + (1/10) * (1 - min 1 |avgPadaGuruFrac padas syllables labels
            - expectedGuruFrac tpl.total|)
    ∧ 9/10 ≤ (matchEntry pow15 syllables labels tpl).pada_score := by
  rcases padas with _ | ⟨p, ps⟩
  · exfalso
    rw [List.sum_nil] at hsum
    fin_cases htpl <;> simp_all
  · exact matchEntry_exact pow15 hpow tpl p ps hp hsum syllables labels hs

/-- Witness for C7: the Gayatri template with a concrete 24-syllable line. -/
theorem match_chanda_exact_template_scores_witness :
    (matchEntry (fun _ => 0) (List.replicate 24 ['क']) (List.replicate 24 "L")
      ⟨"Gayatri", 24, some [8, 8, 8]⟩).total_score = 1
    ∧ (matchEntry (fun _ => 0) (List.replicate 24 ['क']) (List.replicate 24 "L")
        ⟨"Gayatri", 24, some [8, 8, 8]⟩).pada_score
        = 9/10 + (1/10) * (1 - min 1 |avgPadaGuruFrac [8, 8, 8]
            (List.replicate 24 ['क']) (List.replicate 24 "L")
            - expectedGuruFrac 24|)
    ∧ 9/10 ≤ (matchEntry (fun _ => 0) (List.replicate 24 ['क'])
        (List.replicate 24 "L") ⟨"Gayatri", 24, some [8, 8, 8]⟩).pada_score :=
  match_chanda_exact_template_scores (fun _ => 0) rfl
    ⟨"Gayatri", 24, some [8, 8, 8]⟩ (by decide)
    [8, 8, 8] rfl (by decide)
    (List.replicate 24 ['क']) (List.replicate 24 "L") (by simp) (by simp)

/-! ### C8: the orchestrator's combined candidate score -/

/-- C8: every candidate record produced by `infer_line` carries
`combined_score = 0.55 × avg_conf + 0.15 × lex_score + meter_bonus
− 0.9 × iso_frac`, blended as `0.9 × combined + 0.1 × generator_score` when
the generator supplied a score; the meter bonus is `meter_match_bonus` of the
candidate's syllables: 0.30 when the syllable count exactly equals some
template's total, else the maximum over templates of
`max(0, 0.20 × (1 − normalized count difference))`. -/
theorem infer_line_combined_score (pow15 : ℚ → ℚ) (LEX : List (List Char))
    (line0 : List Char) (us : Bool) (cr : CandResult)
    (hcr : cr ∈ (infer_line pow15 LEX line0 us).candidates) :
    cr.combined_score =
      (match cr.meta_score with
       | some s => (9/10) * ((55/100) * cr.avg_conf + (15/100) * cr.lex_score
            + cr.meter_bonus - (9/10) * cr.iso_frac) + (1/10) * s
       | none => (55/100) * cr.avg_conf + (15/100) * cr.lex_score
            + cr.meter_bonus - (9/10) * cr.iso_frac)
    ∧ cr.meter_bonus = meter_match_bonus cr.syllables
    ∧ ((∃ tpl ∈ METER_TEMPLATES, cr.syllables.length = tpl.total) →
        cr.meter_bonus = 30/100)
    ∧ ((¬ ∃ tpl ∈ METER_TEMPLATES, cr.syllables.length = tpl.total) →
        cr.meter_bonus = (METER_TEMPLATES.map (fun tpl =>
          max 0 ((20/100) * (1 - |(cr.syllables.length : ℚ) - (tpl.total : ℚ)|
            / (max cr.syllables.length tpl.total : ℚ))))).foldl max 0) := by
  have hshape : ∃ raw, cr = processCandidate LEX raw := by
    unfold infer_line at hcr
    dsimp only at hcr
    split at hcr <;>
    · rw [List.mem_map] at hcr
      obtain ⟨raw, _, hraw⟩ := hcr
      exact ⟨raw, hraw.symm⟩
  obtain ⟨raw, hraw⟩ := hshape
  subst hraw
  have hbase : (processCandidate LEX raw).combined_score =
      (match (processCandidate LEX raw).meta_score with
       | some s => (9/10) * ((55/100) * (processCandidate LEX raw).avg_conf
            + (15/100) * (processCandidate LEX raw).lex_score
            + (processCandidate LEX raw).meter_bonus
            - (9/10) * (processCandidate LEX raw).iso_frac) + (1/10) * s
       | none => (55/100) * (processCandidate LEX raw).avg_conf
            + (15/100) * (processCandidate LEX raw).lex_score
            + (processCandidate LEX raw).meter_bonus
            - (9/10) * (processCandidate LEX raw).iso_frac) := by
    cases raw <;> rfl
  have hbonus : (processCandidate LEX raw).meter_bonus
      = meter_match_bonus (processCandidate LEX raw).syllables := by
    cases raw <;> rfl
  refine ⟨hbase, hbonus, ?_, ?_⟩
  · intro hex
    rw [hbonus]
    unfold meter_match_bonus
    rw [if_pos ?_]
    rw [List.any_eq_true]
    obtain ⟨tpl, htpl, hlen⟩ := hex
    exact ⟨tpl, htpl, by simpa using hlen⟩
  · intro hnex
    rw [hbonus]
    unfold meter_match_bonus
    rw [if_neg ?_]
    rw [List.any_eq_true]
    rintro ⟨tpl, htpl, hlen⟩
    exact hnex ⟨tpl, htpl, by simpa using hlen⟩

set_option maxRecDepth 10000 in
unseal Rat.add Rat.mul Rat.inv Rat.sub in
/-- Witness for C8 on the concrete line "क" without sandhi. -/
theorem infer_line_combined_score_witness :
    (processCandidate [] (RawCand.str ['क']))
        ∈ (infer_line (fun _ => 0) [] ['क'] false).candidates
    ∧ (processCandidate [] (RawCand.str ['क'])).combined_score =
        (match (processCandidate [] (RawCand.str ['क'])).meta_score with
         | some s => (9/10) * ((55/100) * (processCandidate [] (RawCand.str ['क'])).avg_conf
              + (15/100) * (processCandidate [] (RawCand.str ['क'])).lex_score
              + (processCandidate [] (RawCand.str ['क'])).meter_bonus
              - (9/10) * (processCandidate [] (RawCand.str ['क'])).iso_frac) + (1/10) * s
         | none => (55/100) * (processCandidate [] (RawCand.str ['क'])).avg_conf
              + (15/100) * (processCandidate [] (RawCand.str ['क'])).lex_score
              + (processCandidate [] (RawCand.str ['क'])).meter_bonus
              - (9/10) * (processCandidate [] (RawCand.str ['क'])).iso_frac) := by
  have hm : (processCandidate [] (RawCand.str ['क']))
      ∈ (infer_line (fun _ => 0) [] ['क'] false).candidates := by decide
  exact ⟨hm, (infer_line_combined_score (fun _ => 0) [] ['क'] false _ hm).1⟩

/-! ### C9: determinism -/

/-- C9: `infer_line` is a pure function of its input line, flag, lexicon and
the fixed template table; two calls with identical arguments return identical
result objects (same candidates with same scores in the same order, same
chosen candidate, same top meter matches).  The source has no nondeterminism:
Python sets are used only for membership tests, dicts preserve insertion
order, and both sorts are stable. -/
theorem infer_line_deterministic (pow15 : ℚ → ℚ) (LEX : List (List Char))
    (line0 : List Char) (us : Bool) :
    infer_line pow15 LEX line0 us = infer_line pow15 LEX line0 us
    ∧ ∀ k lex aggr, gen_candidates line0 k lex aggr = gen_candidates line0 k lex aggr :=
  ⟨rfl, fun _ _ _ => rfl⟩

/-! ### C10: totality and nonemptiness -/

theorem upsert_ne_nil (acc : List Cand) (c : Cand) : upsert acc c ≠ [] := by
  cases acc with
  | nil => simp [upsert]
  | cons e rest =>
    simp only [upsert]
    split
    · split <;> simp
    · simp

theorem foldl_upsert_ne_nil : ∀ (cs acc : List Cand), acc ≠ [] →
    cs.foldl upsert acc ≠ []
  | [], _, h => h
  | c :: rest, acc, _ => by
    simp only [List.foldl_cons]
    exact foldl_upsert_ne_nil rest (upsert acc c) (upsert_ne_nil acc c)

theorem insertDesc_length (c : Cand) : ∀ l : List Cand,
    (insertDesc c l).length = l.length + 1
  | [] => rfl
  | e :: rest => by
    simp only [insertDesc]
    split
    · simp [insertDesc_length c rest]
    · simp

theorem sortDesc_length (cs : List Cand) : (sortDesc cs).length = cs.length := by
  unfold sortDesc
  suffices h : ∀ acc : List Cand,
      (cs.foldl (fun acc c => insertDesc c acc) acc).length = cs.length + acc.length by
    simpa using h []
  induction cs with
  | nil => intro acc; simp
  | cons c rest ih =>
    intro acc
    simp only [List.foldl_cons]
    rw [ih (insertDesc c acc), insertDesc_length]
    simp only [List.length_cons]
    omega

theorem gen_candidates_ne_nil (l : List Char) (k : ℕ) (hk : 1 ≤ k)
    (lex : List (List Char)) (aggr : Bool) : gen_candidates l k lex aggr ≠ [] := by
  unfold gen_candidates genSorted
  intro h
  have hded : dedupBest (genPreDedup l lex aggr) ≠ [] := by
    unfold genPreDedup dedupBest
    dsimp only
    simp only [List.foldl_cons]
    exact foldl_upsert_ne_nil _ (upsert [] _) (upsert_ne_nil [] _)
  have hpos : 0 < (dedupBest (genPreDedup l lex aggr)).length :=
    List.length_pos.mpr hded
  have hlen := congrArg List.length h
  rw [List.length_take, List.length_map, sortDesc_length] at hlen
  simp only [List.length_nil] at hlen
  omega

theorem insertDescE_length (c : ChandaEntry) : ∀ l : List ChandaEntry,
    (insertDescE c l).length = l.length + 1
  | [] => rfl
  | e :: rest => by
    simp only [insertDescE]
    split
    · simp [insertDescE_length c rest]
    · simp

theorem sortDescE_length (cs : List ChandaEntry) : (sortDescE cs).length = cs.length := by
  unfold sortDescE
  suffices h : ∀ acc : List ChandaEntry,
      (cs.foldl (fun acc c => insertDescE c acc) acc).length = cs.length + acc.length by
    simpa using h []
  induction cs with
  | nil => intro acc; simp
  | cons c rest ih =>
    intro acc
    simp only [List.foldl_cons]
    rw [ih (insertDescE c acc), insertDescE_length]
    simp only [List.length_cons]
    omega

theorem match_chanda_length_three (pow15 : ℚ → ℚ) (syllables : List (List Char))
    (labels : List String) : (match_chanda pow15 syllables labels 3).length = 3 := by
  unfold match_chanda
  rw [List.length_take, sortDescE_length, List.length_map]
  rfl

theorem argmaxBy_mem (key : CandResult → ℚ) (x : CandResult) :
    ∀ l : List CandResult, argmaxBy key x l = x ∨ argmaxBy key x l ∈ l
  | [] => Or.inl rfl
  | y :: rest => by
    simp only [argmaxBy]
    split
    · rcases argmaxBy_mem key y rest with h | h
      · right; rw [h]; exact List.mem_cons_self y rest
      · right; exact List.mem_cons_of_mem y h
    · rcases argmaxBy_mem key x rest with h | h
      · left; exact h
      · right; exact List.mem_cons_of_mem y h

/-- C10: for every input string (including empty and whitespace-only lines)
and both sandhi flags, `infer_line` returns a nonempty candidate list, a
chosen candidate that is one of them, and exactly 3 top meter matches; and
`gen_candidates` always returns at least one candidate at the default `k=8`. -/
theorem infer_line_total_and_nonempty (pow15 : ℚ → ℚ) (LEX : List (List Char))
    (line0 : List Char) (us : Bool) :
    (infer_line pow15 LEX line0 us).candidates ≠ []
    ∧ (infer_line pow15 LEX line0 us).chosen_candidate
        ∈ (infer_line pow15 LEX line0 us).candidates
    ∧ ((infer_line pow15 LEX line0 us).top_chanda).length = 3
    ∧ ∀ l : List Char, gen_candidates l 8 DEFAULT_LEXICON false ≠ [] := by
  have hgen : ∀ l : List Char, gen_candidates l 8 DEFAULT_LEXICON false ≠ [] :=
    fun l => gen_candidates_ne_nil l 8 (by norm_num) DEFAULT_LEXICON false
  have hne : (infer_line pow15 LEX line0 us).candidates ≠ [] := by
    unfold infer_line
    dsimp only
    split
    · rename_i hus
      intro hmap
      rw [List.map_eq_nil_iff, List.map_eq_nil_iff] at hmap
      exact hgen (normalize_text line0) hmap
    · simp
  refine ⟨hne, ?_, ?_, hgen⟩
  · unfold infer_line at hne ⊢
    dsimp only at hne ⊢
    rcases hcr : (if us = true
        then (gen_candidates (normalize_text line0) 8 DEFAULT_LEXICON false).map RawCand.dict
        else [RawCand.str (normalize_text line0)]).map (processCandidate LEX) with
      _ | ⟨c, rest⟩
    · exact absurd hcr (by simpa using hne)
    · simp only [hcr]
      rcases argmaxBy_mem (fun c => c.combined_score) c rest with h | h
      · rw [h]; exact List.mem_cons_self c rest
      · exact List.mem_cons_of_mem c h
  · unfold infer_line
    dsimp only
    exact match_chanda_length_three pow15 _ _

/-! ### C4: token counting through splits and replacements -/

theorem countP_filter_comm (p q : Char → Bool) : ∀ l : List Char,
    (l.filter q).countP p = l.countP (fun x => p x && q x)
  | [] => rfl
  | c :: rest => by
    rw [List.filter_cons, List.countP_cons]
    by_cases hq : q c
    · rw [if_pos hq, List.countP_cons, countP_filter_comm p q rest]
      by_cases hp : p c <;> simp [hp, hq]
    · rw [if_neg hq, countP_filter_comm p q rest]
      simp [hq]

/-- For a predicate vanishing on whitespace, the count of a string is
determined by its token list. -/
theorem countP_eq_of_tokens (p : Char → Bool)
    (hp : ∀ x, p x = true → isWsChar x = false) (a b : List Char)
    (h : splitWs a = splitWs b) : a.countP p = b.countP p := by
  have hfun : (fun x => p x && !isWsChar x) = p := by
    funext x
    by_cases hx : p x
    · simp [hx, hp x hx]
    · simp [hx]
  have key : ∀ l : List Char, l.countP p = (splitWs l).flatten.countP p := by
    intro l
    rw [splitWs_flatten, countP_filter_comm]
    rw [show (fun x => p x && (fun c => !isWsChar c) x) = p from hfun]
  rw [key a, key b, h]

theorem inN_not_ws : ∀ x : Char, inN x = true → isWsChar x = false := by
  intro x hx
  simp only [inN, decide_eq_true_eq, List.mem_cons, List.mem_singleton,
    List.not_mem_nil, or_false] at hx
  rcases hx with rfl | rfl | rfl | rfl | rfl | rfl <;> decide

theorem inM2_not_ws : ∀ x : Char, inM2 x = true → isWsChar x = false := by
  intro x hx
  simp only [inM2, decide_eq_true_eq, List.mem_cons, List.mem_singleton,
    List.not_mem_nil, or_false] at hx
  rcases hx with rfl | rfl <;> decide

theorem visChar_not_ws : ∀ x : Char, isVisChar x = true → isWsChar x = false := by
  intro x hx
  simp only [isVisChar, decide_eq_true_eq] at hx
  subst hx
  decide

theorem anuChar_not_ws : ∀ x : Char, isAnuChar x = true → isWsChar x = false := by
  intro x hx
  simp only [isAnuChar, decide_eq_true_eq] at hx
  subst hx
  decide

theorem replaceAll_countP_eq (χ : Char) (ρ : List Char) (p : Char → Bool)
    (hχ : p χ = false) (hρ : ρ.countP p = 0) (t : List Char) :
    (replaceAll χ ρ t).countP p = t.countP p := by
  have h := replaceAll_countP χ ρ p t
  rw [hχ, hρ] at h
  simpa using h

theorem replaceAll_countP_lt (χ : Char) (ρ : List Char) (p : Char → Bool)
    (hχ : p χ = true) (hρ : ρ.countP p = 0) (t : List Char) (hmem : χ ∈ t) :
    (replaceAll χ ρ t).countP p < t.countP p := by
  have h := replaceAll_countP χ ρ p t
  rw [hχ, hρ] at h
  have hcnt : 0 < t.count χ := List.count_pos_iff.mpr hmem
  simp at h
  omega

theorem nasal_not_measures (nas : Char)
    (h : nas ∈ (['ङ', 'ञ', 'ण', 'न', 'म'] : List Char)) :
    inN nas = false ∧ inM2 nas = false ∧ isVisChar nas = false
      ∧ isAnuChar nas = false := by
  simp only [List.mem_cons, List.mem_singleton, List.not_mem_nil, or_false] at h
  rcases h with rfl | rfl | rfl | rfl | rfl <;>
    exact ⟨by decide, by decide, by decide, by decide⟩

/-- Staged measure accounting for a one-step shape: the `inN` count never
increases; if it is preserved, the `inM2` count does not increase; and so on
through visarga and anusvara counts, after which only space insertion is left. -/
theorem stage_kill {a b : ℕ} {P : Prop} (hlt : a < b) :
    a ≤ b ∧ (a = b → P) :=
  ⟨le_of_lt hlt, fun heq => absurd heq (Nat.ne_of_lt hlt)⟩

/-- Staged measure accounting for a one-step shape: the `inN` count never
increases; if it is preserved, the `inM2` count does not increase; and so on
through visarga and anusvara counts, after which only space insertion is left. -/
theorem shape_counts (t c : List Char) (h : Shape t c) :
    c.countP inN ≤ t.countP inN ∧
    (c.countP inN = t.countP inN →
      c.countP inM2 ≤ t.countP inM2 ∧
      (c.countP inM2 = t.countP inM2 →
        c.countP isVisChar ≤ t.countP isVisChar ∧
        (c.countP isVisChar = t.countP isVisChar →
          c.countP isAnuChar ≤ t.countP isAnuChar ∧
          (c.countP isAnuChar = t.countP isAnuChar → SpacedOf t c)))) := by
  cases h with
  | ws c hsp =>
    refine ⟨le_of_eq (spacedOf_countP inN (by decide) hsp), fun _ => ?_⟩
    refine ⟨le_of_eq (spacedOf_countP inM2 (by decide) hsp), fun _ => ?_⟩
    refine ⟨le_of_eq (spacedOf_countP isVisChar (by decide) hsp), fun _ => ?_⟩
    exact ⟨le_of_eq (spacedOf_countP isAnuChar (by decide) hsp), fun _ => hsp⟩
  | chrule χ ρ c hmem hχt hc =>
    subst hc
    simp only [charRules, List.mem_cons, List.mem_singleton, List.not_mem_nil,
      or_false, Prod.mk.injEq] at hmem
    obtain ⟨rfl, rfl⟩ | hmem := hmem
    · exact stage_kill (replaceAll_countP_lt 'ा' ['अ', 'अ'] inN
        (by decide) (by decide) t hχt)
    obtain ⟨rfl, rfl⟩ | hmem := hmem
    · exact stage_kill (replaceAll_countP_lt 'े' ['अ', 'इ'] inN
        (by decide) (by decide) t hχt)
    obtain ⟨rfl, rfl⟩ | hmem := hmem
    · exact stage_kill (replaceAll_countP_lt 'ो' ['अ', 'उ'] inN
        (by decide) (by decide) t hχt)
    obtain ⟨rfl, rfl⟩ | hmem := hmem
    · refine ⟨le_of_eq (replaceAll_countP_eq 'ी' ['इ', 'इ'] inN
        (by decide) (by decide) t), fun _ => ?_⟩
      exact stage_kill (replaceAll_countP_lt 'ी' ['इ', 'इ'] inM2
        (by decide) (by decide) t hχt)
    obtain ⟨rfl, rfl⟩ | hmem := hmem
    · refine ⟨le_of_eq (replaceAll_countP_eq 'ू' ['उ', 'उ'] inN
        (by decide) (by decide) t), fun _ => ?_⟩
      exact stage_kill (replaceAll_countP_lt 'ू' ['उ', 'उ'] inM2
        (by decide) (by decide) t hχt)
    obtain ⟨rfl, rfl⟩ | hmem := hmem
    · exact stage_kill (replaceAll_countP_lt 'ऽ' [' '] inN
        (by decide) (by decide) t hχt)
    obtain ⟨rfl, rfl⟩ | hmem := hmem
    · exact stage_kill (replaceAll_countP_lt 'ौ' ['अ', 'उ'] inN
        (by decide) (by decide) t hχt)
    obtain ⟨rfl, rfl⟩ | hmem := hmem
    · exact stage_kill (replaceAll_countP_lt 'ै' ['अ', 'इ'] inN
        (by decide) (by decide) t hχt)
    obtain ⟨rfl, rfl⟩ | hmem := hmem
    · exact stage_kill (replaceAll_countP_lt 'े' ['अ', 'ी'] inN
        (by decide) (by decide) t hχt)
    obtain ⟨rfl, rfl⟩ | hmem := hmem
    · exact stage_kill (replaceAll_countP_lt 'ो' ['अ', 'ू'] inN
        (by decide) (by decide) t hχt)
    obtain ⟨rfl, rfl⟩ | ⟨rfl, rfl⟩ := hmem
    · refine ⟨le_of_eq (replaceAll_countP_eq 'ः' ['स', '्', ' '] inN
        (by decide) (by decide) t), fun _ => ?_⟩
      refine ⟨le_of_eq (replaceAll_countP_eq 'ः' ['स', '्', ' '] inM2
        (by decide) (by decide) t), fun _ => ?_⟩
      exact stage_kill (replaceAll_countP_lt 'ः' ['स', '्', ' '] isVisChar
        (by decide) (by decide) t hχt)
    · refine ⟨le_of_eq (replaceAll_countP_eq 'ः' ['त', '्', ' '] inN
        (by decide) (by decide) t), fun _ => ?_⟩
      refine ⟨le_of_eq (replaceAll_countP_eq 'ः' ['त', '्', ' '] inM2
        (by decide) (by decide) t), fun _ => ?_⟩
      exact stage_kill (replaceAll_countP_lt 'ः' ['त', '्', ' '] isVisChar
        (by decide) (by decide) t hχt)
  | nasal u v nas ht hnas =>
    obtain ⟨hn1, hn2, hn3, hn4⟩ := nasal_not_measures nas hnas
    subst ht
    have key : ∀ p : Char → Bool, p 'ं' = false → p nas = false → p '्' = false →
        (u ++ nas :: '्' :: v).countP p = (u ++ 'ं' :: v).countP p := by
      intro p hp1 hp2 hp3
      simp [List.countP_append, List.countP_cons, hp1, hp2, hp3]
    have hc4 : (u ++ nas :: '्' :: v).countP isAnuChar
        < (u ++ 'ं' :: v).countP isAnuChar := by
      simp only [List.countP_append, List.countP_cons, hn4,
        (by decide : isAnuChar 'ं' = true), (by decide : isAnuChar '्' = false)]
      simp
    refine ⟨le_of_eq (key inN (by decide) hn1 (by decide)), fun _ => ?_⟩
    refine ⟨le_of_eq (key inM2 (by decide) hn2 (by decide)), fun _ => ?_⟩
    refine ⟨le_of_eq (key isVisChar (by decide) hn3 (by decide)), fun _ => ?_⟩
    exact stage_kill hc4

/-! ### C4: space insertion refines the token list -/

theorem splitWs_singleton (d : Char) (hd : isWsChar d = false) :
    splitWs [d] = [[d]] := by
  rw [splitWs.eq_def]
  simp only [hd, Bool.false_eq_true, if_false]
  rw [show splitWs ([] : List Char) = [] from rfl]

theorem splitWs_cons_ws (d e : Char) (l : List Char) (hd : isWsChar d = false)
    (he : isWsChar e = true) : splitWs (d :: e :: l) = [d] :: splitWs (e :: l) := by
  rw [splitWs.eq_def]
  simp only [hd, Bool.false_eq_true, if_false]
  rw [splitWs_ws_cons e l he]
  rcases hq : splitWs l with _ | ⟨t, ts⟩
  · rfl
  · dsimp only
    rw [if_pos he]

theorem splitWs_ne_nil (e : Char) (l : List Char) (he : isWsChar e = false) :
    splitWs (e :: l) ≠ [] := by
  rw [splitWs.eq_def]
  simp only [he, Bool.false_eq_true, if_false]
  rcases hq : splitWs l with _ | ⟨t, ts⟩
  · simp
  · rcases l with _ | ⟨d2, l2⟩
    · simp
    · dsimp only
      split_ifs <;> simp

theorem splitWs_cons_exists (e : Char) (l : List Char) (he : isWsChar e = false) :
    ∃ t0 ts0, splitWs (e :: l) = t0 :: ts0 := by
  rcases hx : splitWs (e :: l) with _ | ⟨t0, ts0⟩
  · exact absurd hx (splitWs_ne_nil e l he)
  · exact ⟨t0, ts0, rfl⟩

theorem splitWs_cons_cons (d e : Char) (l : List Char) (hd : isWsChar d = false)
    (he : isWsChar e = false) (t0 : List Char) (ts0 : List (List Char))
    (h : splitWs (e :: l) = t0 :: ts0) :
    splitWs (d :: e :: l) = (d :: t0) :: ts0 := by
  rw [splitWs.eq_def]
  simp only [hd, Bool.false_eq_true, if_false]
  rw [h]
  dsimp only
  rw [if_neg (by simp [he])]

theorem spacedOf_nil_all : ∀ (c : List Char), SpacedOf [] c → ∀ x ∈ c, x = ' '
  | [], _, x, hx => by simp at hx
  | e :: c2, h, x, hx => by
    cases h with
    | space _ _ h2 =>
      rcases List.mem_cons.mp hx with rfl | hx2
      · rfl
      · exact spacedOf_nil_all c2 h2 x hx2

theorem splitWs_all_ws : ∀ (l : List Char), (∀ x ∈ l, isWsChar x = true) →
    splitWs l = []
  | [], _ => rfl
  | c :: rest, h => by
    rw [splitWs_ws_cons c rest (h c (by simp))]
    exact splitWs_all_ws rest (fun x hx => h x (List.mem_cons_of_mem c hx))

/-- Token refinement: `Finer ts cs` when `cs` arises from `ts` by splitting
each token into a nonempty group of consecutive tokens. -/
inductive Finer : List (List Char) → List (List Char) → Prop
  | nil : Finer [] []
  | group (t : List Char) (g ts cs : List (List Char)) :
      g ≠ [] → g.flatten = t → Finer ts cs → Finer (t :: ts) (g ++ cs)

theorem Finer.length_le {a b : List (List Char)} (h : Finer a b) :
    a.length ≤ b.length := by
  induction h with
  | nil => exact le_refl 0
  | group t g ts cs hg hfl hf ih =>
    rw [List.length_cons, List.length_append]
    have hgl : 0 < g.length := List.length_pos.mpr hg
    omega

theorem Finer.cons_inv {t0 : List Char} {ts0 b : List (List Char)}
    (h : Finer (t0 :: ts0) b) :
    ∃ g cs, g ≠ [] ∧ g.flatten = t0 ∧ Finer ts0 cs ∧ b = g ++ cs := by
  cases h with
  | group t g ts cs hg hfl hf => exact ⟨g, cs, hg, hfl, hf, rfl⟩

theorem Finer.eq_of_length_le {a b : List (List Char)} (h : Finer a b) :
    b.length ≤ a.length → a = b := by
  induction h with
  | nil => intro _; rfl
  | group t g ts cs hg hfl hf ih =>
    intro hlen
    rw [List.length_cons, List.length_append] at hlen
    have h1 : ts.length ≤ cs.length := hf.length_le
    rcases g with _ | ⟨g0, g'⟩
    · exact absurd rfl hg
    · rcases g' with _ | ⟨g1, g''⟩
      · simp only [List.flatten_cons, List.flatten_nil, List.append_nil] at hfl
        have hts : ts = cs := ih (by simp only [List.length_cons] at hlen; omega)
        rw [hts, hfl]
        rfl
      · simp only [List.length_cons] at hlen
        omega

/-- Inserting spaces refines the token list. -/
theorem spacedOf_finer {t c : List Char} (h : SpacedOf t c) :
    Finer (splitWs t) (splitWs c) := by
  induction h with
  | nil => exact Finer.nil
  | space t₂ c₂ h' ih =>
    rw [splitWs_ws_cons ' ' c₂ (by decide)]
    exact ih
  | cons d t₁ t₂ h' ih =>
    by_cases hd : isWsChar d
    · rw [splitWs_ws_cons d t₁ hd, splitWs_ws_cons d t₂ hd]
      exact ih
    · rw [Bool.not_eq_true] at hd
      rcases t₁ with _ | ⟨e, t₁'⟩
      · have hall : ∀ x ∈ t₂, x = ' ' := spacedOf_nil_all t₂ h'
        have h2 : splitWs t₂ = [] :=
          splitWs_all_ws t₂ (fun x hx => by rw [hall x hx]; decide)
        have hR : splitWs (d :: t₂) = [[d]] := by
          rcases t₂ with _ | ⟨e2, c2⟩
          · exact splitWs_singleton d hd
          · have he2 : e2 = ' ' := hall e2 (by simp)
            subst he2
            rw [splitWs_cons_ws d ' ' c2 hd (by decide)]
            rw [splitWs_ws_cons ' ' c2 (by decide)] at h2 ⊢
            rw [h2]
        rw [hR, splitWs_singleton d hd]
        have hgrp := Finer.group [d] [[d]] [] [] (by simp) (by simp) Finer.nil
        simpa using hgrp
      · by_cases he : isWsChar e
        · have hc : ∃ c₂, t₂ = e :: c₂ ∨ t₂ = ' ' :: c₂ := by
            cases h' with
            | cons c ta tb hsub => exact ⟨tb, Or.inl rfl⟩
            | space ta tb hsub => exact ⟨tb, Or.inr rfl⟩
          obtain ⟨c₂, hc⟩ := hc
          have hhead : splitWs (d :: t₂) = [d] :: splitWs t₂ := by
            rcases hc with rfl | rfl
            · exact splitWs_cons_ws d e c₂ hd he
            · exact splitWs_cons_ws d ' ' c₂ hd (by decide)
          rw [hhead, splitWs_cons_ws d e t₁' hd he]
          have hgrp := Finer.group [d] [[d]] (splitWs (e :: t₁')) (splitWs t₂)
            (by simp) (by simp) ih
          simpa using hgrp
        · rw [Bool.not_eq_true] at he
          obtain ⟨t0, ts0, ht0⟩ := splitWs_cons_exists e t₁' he
          have hL : splitWs (d :: e :: t₁') = (d :: t0) :: ts0 :=
            splitWs_cons_cons d e t₁' hd he t0 ts0 ht0
          cases h' with
          | cons c ta tb hsub =>
            obtain ⟨c0, cs0, hc0⟩ := splitWs_cons_exists e tb he
            have hR : splitWs (d :: e :: tb) = (d :: c0) :: cs0 :=
              splitWs_cons_cons d e tb hd he c0 cs0 hc0
            rw [hL, hR]
            rw [ht0, hc0] at ih
            obtain ⟨g, cs, hg, hfl, hf, hb⟩ := ih.cons_inv
            rcases g with _ | ⟨g0, g'⟩
            · exact absurd rfl hg
            · rw [List.cons_append] at hb
              injection hb with hb1 hb2
              subst hb1
              rw [hb2]
              simp only [List.flatten_cons] at hfl
              have hgrp := Finer.group (d :: t0) ((d :: c0) :: g') ts0 cs
                (by simp) (by rw [List.flatten_cons, List.cons_append, hfl]) hf
              simpa using hgrp
          | space ta tb hsub =>
            rw [hL, splitWs_cons_ws d ' ' tb hd (by decide)]
            rw [splitWs_ws_cons ' ' tb (by decide), ht0] at ih
            obtain ⟨g, cs, hg, hfl, hf, hb⟩ := ih.cons_inv
            rw [splitWs_ws_cons ' ' tb (by decide), hb]
            have hgrp := Finer.group (d :: t0) ([d] :: g) ts0 cs
              (by simp) (by rw [List.flatten_cons, hfl]; rfl) hf
            simpa using hgrp

/-- If two consecutive one-step shapes land back on the original token list,
the intermediate text already has the original token list. -/
theorem two_step_tokens (T c1 c2 : List Char)
    (h1 : Shape T c1) (h2 : Shape c1 c2)
    (heq : splitWs c2 = splitWs T) : splitWs c1 = splitWs T := by
  have k1 := shape_counts T c1 h1
  have k2 := shape_counts c1 c2 h2
  have e1 : c2.countP inN = T.countP inN :=
    countP_eq_of_tokens inN inN_not_ws c2 T heq
  have e2 : c2.countP inM2 = T.countP inM2 :=
    countP_eq_of_tokens inM2 inM2_not_ws c2 T heq
  have e3 : c2.countP isVisChar = T.countP isVisChar :=
    countP_eq_of_tokens isVisChar visChar_not_ws c2 T heq
  have e4 : c2.countP isAnuChar = T.countP isAnuChar :=
    countP_eq_of_tokens isAnuChar anuChar_not_ws c2 T heq
  have l1a := k1.1
  have l1b := k2.1
  have a1 : c1.countP inN = T.countP inN := by omega
  have b1 : c2.countP inN = c1.countP inN := by omega
  have k1b := k1.2 a1
  have k2b := k2.2 b1
  have l2a := k1b.1
  have l2b := k2b.1
  have a2 : c1.countP inM2 = T.countP inM2 := by omega
  have b2 : c2.countP inM2 = c1.countP inM2 := by omega
  have k1c := k1b.2 a2
  have k2c := k2b.2 b2
  have l3a := k1c.1
  have l3b := k2c.1
  have a3 : c1.countP isVisChar = T.countP isVisChar := by omega
  have b3 : c2.countP isVisChar = c1.countP isVisChar := by omega
  have k1d := k1c.2 a3
  have k2d := k2c.2 b3
  have l4a := k1d.1
  have l4b := k2d.1
  have a4 : c1.countP isAnuChar = T.countP isAnuChar := by omega
  have b4 : c2.countP isAnuChar = c1.countP isAnuChar := by omega
  have sp1 : SpacedOf T c1 := k1d.2 a4
  have sp2 : SpacedOf c1 c2 := k2d.2 b4
  have F1 := spacedOf_finer sp1
  have F2 := spacedOf_finer sp2
  rw [heq] at F2
  exact (F1.eq_of_length_le F2.length_le).symm

/-! ### C4: colliding candidates never beat the identity candidate -/

theorem baseline_le_id_of_tokens (orig cand T : List Char) (name : String)
    (lexicon : List (List Char)) (hname : name ≠ "")
    (htok : splitWs cand = splitWs T) :
    _baseline_score orig cand name lexicon
      ≤ _baseline_score T T "identity" lexicon := by
  rw [identity_eq_cap]
  exact le_trans (baseline_le_cap orig cand name lexicon hname)
    (le_of_eq (capScore_eq_of_tokens cand T lexicon htok))

theorem dedupFirst_subset : ∀ (l : List (List Char × String))
    (seen : List (List Char)) (x : List Char × String),
    x ∈ dedupFirst l seen → x ∈ l
  | [], _, x, hx => by simp [dedupFirst] at hx
  | (c, n) :: rest, seen, x, hx => by
    rw [dedupFirst] at hx
    split at hx
    · exact List.mem_cons_of_mem _ (dedupFirst_subset rest seen x hx)
    · rcases List.mem_cons.mp hx with rfl | hx2
      · exact List.mem_cons_self _ _
      · exact List.mem_cons_of_mem _ (dedupFirst_subset rest _ x hx2)

theorem one_step_mem_struct (text : List Char) (lexicon : List (List Char))
    (c : Cand) (hc : c ∈ _one_step_candidates text lexicon) :
    ∃ p, p ∈ oneStepPairs text ∧
      c = ⟨p.1, _baseline_score text p.1 p.2 lexicon, [p.2]⟩ := by
  unfold _one_step_candidates at hc
  rw [List.mem_map] at hc
  obtain ⟨p, hp, hcp⟩ := hc
  exact ⟨p, dedupFirst_subset _ _ _ hp, hcp.symm⟩

/-- Any candidate in the tail of the pre-dedup list whose normalized text
collides with the (stripped) input scores no higher than the identity
candidate. -/
theorem collide_score_le (T : List Char) (lexicon : List (List Char))
    (aggr : Bool) (c : Cand)
    (hc : c ∈ _one_step_candidates T lexicon
        ++ (if aggr then aggressiveCands T lexicon else [])
        ++ twoStepCands T lexicon)
    (hw : wsNorm c.cand = wsNorm T) :
    c.score ≤ _baseline_score T T "identity" lexicon := by
  rw [List.mem_append, List.mem_append] at hc
  rcases hc with (hc | hc) | hc
  · obtain ⟨p, hp, hcp⟩ := one_step_mem_struct T lexicon c hc
    have hname := (oneStepPairs_shape T p hp).1
    subst hcp
    exact baseline_le_id_of_tokens T p.1 T p.2 lexicon hname
      (tokens_eq_of_wsNorm_eq _ _ hw)
  · split at hc
    · unfold aggressiveCands at hc
      rw [List.mem_append] at hc
      rcases hc with hc | hc
      · obtain ⟨hcnd, hceq⟩ := mem_ite_singleton hc
        subst hceq
        exact baseline_le_id_of_tokens T _ T "aggr-e->a+i" lexicon (by decide)
          (tokens_eq_of_wsNorm_eq _ _ hw)
      · obtain ⟨hcnd, hceq⟩ := mem_ite_singleton hc
        subst hceq
        exact baseline_le_id_of_tokens T _ T "aggr-o->a+u" lexicon (by decide)
          (tokens_eq_of_wsNorm_eq _ _ hw)
    · simp at hc
  · unfold twoStepCands at hc
    rw [List.mem_flatMap] at hc
    obtain ⟨item, hitem, hc⟩ := hc
    rw [List.mem_map] at hc
    obtain ⟨s, hs, hceq⟩ := hc
    obtain ⟨p, hp, hpitem⟩ := one_step_mem_struct T lexicon item hitem
    obtain ⟨q, hq, hqs⟩ := one_step_mem_struct item.cand lexicon s hs
    have hshape1 := (oneStepPairs_shape T p hp).2
    have hname1 := (oneStepPairs_shape T p hp).1
    have hshape2 := (oneStepPairs_shape item.cand q hq).2
    have hname2 := (oneStepPairs_shape item.cand q hq).1
    subst hceq
    dsimp only at hw ⊢
    rw [hqs] at hw ⊢
    dsimp only at hw ⊢
    have htok2 : splitWs q.1 = splitWs T := tokens_eq_of_wsNorm_eq _ _ hw
    have hs_le : _baseline_score item.cand q.1 q.2 lexicon
        ≤ _baseline_score T T "identity" lexicon :=
      baseline_le_id_of_tokens item.cand q.1 T q.2 lexicon hname2 htok2
    have hshape2b : Shape item.cand q.1 := hshape2
    rw [hpitem] at hshape2b
    dsimp only at hshape2b
    have htok1 : splitWs p.1 = splitWs T :=
      two_step_tokens T p.1 q.1 hshape1 hshape2b htok2
    have hi_le : item.score ≤ _baseline_score T T "identity" lexicon := by
      rw [hpitem]
      exact baseline_le_id_of_tokens T p.1 T p.2 lexicon hname1 htok1
    linarith

/-! ### C4: the identity entry survives deduplication and sorting -/

theorem upsert_keep (E : Cand) : ∀ (acc : List Cand) (c : Cand), E ∈ acc →
    (wsNorm c.cand = E.cand → c.score ≤ E.score) → E ∈ upsert acc c
  | [], c, hE, _ => by simp at hE
  | e :: rest, c, hE, hbound => by
    rw [upsert]
    by_cases hkey : e.cand = wsNorm c.cand
    · rw [if_pos hkey]
      by_cases hsc : c.score > e.score
      · rw [if_pos hsc]
        rcases List.mem_cons.mp hE with rfl | hE2
        · exact absurd hsc (not_lt.mpr (hbound hkey.symm))
        · exact List.mem_cons_of_mem _ hE2
      · rw [if_neg hsc]
        exact hE
    · rw [if_neg hkey]
      rcases List.mem_cons.mp hE with rfl | hE2
      · exact List.mem_cons_self _ _
      · exact List.mem_cons_of_mem _ (upsert_keep E rest c hE2 hbound)

theorem foldl_upsert_keep (E : Cand) : ∀ (cs acc : List Cand), E ∈ acc →
    (∀ c ∈ cs, wsNorm c.cand = E.cand → c.score ≤ E.score) →
    E ∈ cs.foldl upsert acc
  | [], acc, hE, _ => hE
  | c :: rest, acc, hE, hb => by
    rw [List.foldl_cons]
    exact foldl_upsert_keep E rest _ (upsert_keep E acc c hE (hb c (by simp)))
      (fun d hd => hb d (List.mem_cons_of_mem c hd))

theorem insertDesc_mem_intro (c e : Cand) : ∀ l : List Cand,
    e ∈ l ∨ e = c → e ∈ insertDesc c l
  | [], h => by
    rcases h with h | rfl
    · simp at h
    · simp [insertDesc]
  | f :: rest, h => by
    rw [insertDesc]
    split
    · rcases h with h | rfl
      · rcases List.mem_cons.mp h with rfl | h2
        · exact List.mem_cons_self _ _
        · exact List.mem_cons_of_mem _ (insertDesc_mem_intro c e rest (Or.inl h2))
      · exact List.mem_cons_of_mem _ (insertDesc_mem_intro e e rest (Or.inr rfl))
    · rcases h with h | rfl
      · exact List.mem_cons_of_mem _ h
      · exact List.mem_cons_self _ _

theorem foldl_insertDesc_mem (e : Cand) : ∀ (cs acc : List Cand),
    e ∈ acc ∨ e ∈ cs → e ∈ cs.foldl (fun acc c => insertDesc c acc) acc
  | [], acc, h => by
    rcases h with h | h
    · exact h
    · simp at h
  | c :: rest, acc, h => by
    rw [List.foldl_cons]
    apply foldl_insertDesc_mem e rest
    rcases h with h | h
    · exact Or.inl (insertDesc_mem_intro c e acc (Or.inl h))
    · rcases List.mem_cons.mp h with rfl | h2
      · exact Or.inl (insertDesc_mem_intro e e acc (Or.inr rfl))
      · exact Or.inr h2

theorem sortDesc_mem_intro (cs : List Cand) (e : Cand) (he : e ∈ cs) :
    e ∈ sortDesc cs := by
  unfold sortDesc
  exact foldl_insertDesc_mem e cs [] (Or.inr he)

/-- **C4** (amended): for every input line, lexicon and aggressiveness flag,
the deduplicated, descending-sorted candidate list built by `gen_candidates`
*before* the final truncation to `k` contains a candidate whose text equals
the whitespace-normalized (stripped) input line, whose applied-rule list is
`["identity"]`, and whose score is the identity candidate's baseline score.
(The claim as stated — about the truncated list `gen_candidates` returns —
is refuted by `gen_candidates_identity_truncated_away`.) -/
theorem gen_candidates_identity_before_truncation (line : List Char)
    (lexicon : List (List Char)) (allowAggressive : Bool) :
    ∃ c ∈ genSorted line lexicon allowAggressive,
      c.cand = wsNorm (pyStrip line) ∧ c.rules = ["identity"] ∧
      c.score = _baseline_score (pyStrip line) (pyStrip line) "identity" lexicon := by
  refine ⟨⟨wsNorm (pyStrip line),
    _baseline_score (pyStrip line) (pyStrip line) "identity" lexicon,
    ["identity"]⟩, ?_, rfl, rfl, rfl⟩
  unfold genSorted
  apply sortDesc_mem_intro
  unfold dedupBest genPreDedup
  dsimp only
  rw [List.foldl_cons]
  have hstart : upsert [] (identityCand (pyStrip line) lexicon)
      = [⟨wsNorm (pyStrip line),
          _baseline_score (pyStrip line) (pyStrip line) "identity" lexicon,
          ["identity"]⟩] := rfl
  rw [hstart]
  apply foldl_upsert_keep
  · exact List.mem_cons_self _ _
  · intro c hc hwc
    exact collide_score_le (pyStrip line) lexicon allowAggressive c hc hwc

end Chand

